import Mathlib

/-!
Verification development for the sharded streaming array writer
(`ArrayStream`, with its helper `FileSeries`) of the repository under
study.  The JavaScript source is embedded shallowly: the mutable
`ArrayStream` instance together with the filesystem it writes to is a
Lean structure `ArrayState`, every method becomes a state-passing
function, and the asynchronous callback protocol of `_write` is made
explicit as the list of callback invocations the method performs.

Modelling conventions, fixed once here:
* File contents are `String`s; JavaScript byte offsets coincide with
  character offsets because all shard punctuation is ASCII.
* `fs.createWriteStream(path, \x7b start \x7d)` is modelled as truncating
  the file to `start` characters and appending from there (the
  documented intent of the source; every subsequent close writes at
  least the two characters it truncated).
* An S3 object is one more entry of the same keyed store, under the
  key `s3://<bucket>/<folder>/<key>`; the `ManagedUpload` pass-through
  buffer is the entry's content.
* A `Buffer` chunk is represented by its string decoding (the only
  thing the source ever does to a Buffer is `toString()` or writing
  it, which coerce to the same string).
* `JSON.stringify` on the structured values we submit is modelled by
  `Json.render` over a fragment of JSON values (null, booleans,
  strings without characters that need escaping).
-/

/-- Fragment of JSON values used as submitted items: the model of the
structured (non-string, non-Buffer) chunks the writer serializes with
`JSON.stringify`. -/
inductive Json where
  | null : Json
  | bool (b : Bool) : Json
  | str (s : String) : Json
deriving DecidableEq

/-- Character-list rendering of a `Json` value, matching
`JSON.stringify` on values whose strings need no escaping. -/
def Json.renderL : Json → List Char
  | .null => ("null").data
  | .bool true => ("true").data
  | .bool false => ("false").data
  | .str s => '\"' :: s.data ++ ['\"']

/-- String rendering of a `Json` value. -/
def Json.render (j : Json) : String := String.mk j.renderL

/-- Well-formedness of an item: its strings contain no quote and no
backslash, so `JSON.stringify` emits them without escape sequences. -/
def Json.wf : Json → Prop
  | .str s => '\"' ∉ s.data ∧ '\\' ∉ s.data
  | _ => True

instance : DecidablePred Json.wf := by
  intro j
  cases j with
  | null => exact .isTrue trivial
  | bool b => exact .isTrue trivial
  | str s => exact inferInstanceAs (Decidable (_ ∧ _))

/-- Comma-joined concatenation of already-serialized items; the body of
a shard file between its brackets. -/
def joinComma : List String → String
  | [] => ""
  | [s] => s
  | s :: rest => s ++ "," ++ joinComma rest

/-- The finalized content of a shard holding the serialized items
`rs`: bracket, comma-joined body, closing bracket and newline. -/
def shardClosed (rs : List String) : String :=
  "[" ++ joinComma rs ++ "]\n"

/-- The content of the active (not yet finalized) shard. -/
def shardOpen (rs : List String) : String :=
  "[" ++ joinComma rs

/-- A string is a syntactically valid JSON array file in the writer's
output format when it renders some list of JSON values followed by a
newline. -/
def IsJsonArrayFile (content : String) : Prop :=
  ∃ js : List Json, content = shardClosed (js.map Json.render)

-- DECODER: a recursive-descent parser for the shard file format.

/-- Parse the body of a JSON string literal up to its closing quote;
returns the string's characters and the rest of the input. -/
def parseStrBody : List Char → Option (List Char × List Char)
  | [] => none
  | c :: rest =>
    if c = '\"' then some ([], rest)
    else
      match parseStrBody rest with
      | some (s, r) => some (c :: s, r)
      | none => none

/-- Parse one JSON value of the fragment from the head of the input. -/
def parseItem : List Char → Option (Json × List Char)
  | 'n' :: 'u' :: 'l' :: 'l' :: rest => some (.null, rest)
  | 't' :: 'r' :: 'u' :: 'e' :: rest => some (.bool true, rest)
  | 'f' :: 'a' :: 'l' :: 's' :: 'e' :: rest => some (.bool false, rest)
  | '\"' :: rest =>
    match parseStrBody rest with
    | some (s, r) => some (.str (String.mk s), r)
    | none => none
  | _ => none

/-- Parse the comma-separated elements of a nonempty array, expecting
the closing bracket and newline at the very end; `fuel` bounds the
recursion by the length of the input. -/
def parseElems : Nat → List Char → Option (List Json)
  | 0, _ => none
  | fuel + 1, cs =>
    match parseItem cs with
    | none => none
    | some (j, rest) =>
      match rest with
      | [']', '\n'] => some [j]
      | ',' :: rest2 =>
        match parseElems fuel rest2 with
        | some js => some (j :: js)
        | none => none
      | _ => none

/-- JSON-decode a shard file of the writer's output format back into
the list of items it holds. -/
def decodeShard (s : String) : Option (List Json) :=
  match s.data with
  | '[' :: cs => if cs = [']', '\n'] then some [] else parseElems cs.length cs
  | _ => none

-- ROUND-TRIP LEMMAS

theorem String.data_app (s t : String) : (s ++ t).data = s.data ++ t.data := rfl

theorem parseStrBody_complete (s : List Char) (rest : List Char) (h : '\"' ∉ s) :
    parseStrBody (s ++ '\"' :: rest) = some (s, rest) := by
  induction s with
  | nil => simp [parseStrBody]
  | cons c t ih =>
    have hc : c ≠ '\"' := fun hh => h (hh ▸ List.mem_cons_self c t)
    have ht : '\"' ∉ t := fun hh => h (List.mem_cons_of_mem c hh)
    simp [parseStrBody, hc, ih ht]

theorem parseItem_complete (j : Json) (rest : List Char) (hwf : j.wf) :
    parseItem (j.renderL ++ rest) = some (j, rest) := by
  cases j with
  | null => simp [Json.renderL, parseItem]
  | bool b => cases b <;> simp [Json.renderL, parseItem]
  | str s =>
    have hq : '\"' ∉ s.data := hwf.1
    simp [Json.renderL, parseItem, parseStrBody_complete s.data rest hq]

theorem Json.renderL_ne_nil (j : Json) : j.renderL ≠ [] := by
  cases j with
  | null => simp [Json.renderL]
  | bool b => cases b <;> simp [Json.renderL]
  | str s => simp [Json.renderL]

/-- Character-level body of a shard: `joinComma` over rendered items. -/
theorem joinComma_data_cons (j : Json) (js : List Json) :
    (joinComma ((j :: js).map Json.render)).data =
      j.renderL ++ (if js = [] then [] else ',' :: (joinComma (js.map Json.render)).data) := by
  cases js with
  | nil => simp [joinComma, Json.render]
  | cons j2 t =>
    show (Json.render j ++ "," ++ joinComma ((j2 :: t).map Json.render)).data = _
    simp [String.data_app, Json.render]

theorem length_le_of_renderL (j : Json) (cs : List Char) :
    1 ≤ (j.renderL ++ cs).length := by
  have := Json.renderL_ne_nil j
  cases h : j.renderL with
  | nil => exact absurd h this
  | cons a t => simp [h]

theorem parseElems_complete (js : List Json) (hne : js ≠ [])
    (hwf : ∀ j ∈ js, j.wf) :
    ∀ fuel, js.length ≤ fuel →
      parseElems fuel ((joinComma (js.map Json.render)).data ++ [']', '\n']) = some js := by
  induction js with
  | nil => exact absurd rfl hne
  | cons j t ih =>
    intro fuel hfuel
    have hwj : j.wf := hwf j (List.mem_cons_self j t)
    cases fuel with
    | zero => simp at hfuel
    | succ f =>
      cases ht : t with
      | nil =>
        subst ht
        have hbody : (joinComma ([j].map Json.render)).data = j.renderL := by
          simp [joinComma, Json.render]
        rw [hbody]
        simp [parseElems, parseItem_complete j [']', '\n'] hwj]
      | cons j2 t2 =>
        subst ht
        have hne2 : (j2 :: t2) ≠ ([] : List Json) := by simp
        have hwf2 : ∀ x ∈ j2 :: t2, x.wf := fun x hx => hwf x (List.mem_cons_of_mem j hx)
        have hlen : (j2 :: t2).length ≤ f := by
          simpa [List.length_cons] using Nat.succ_le_succ_iff.mp hfuel
        rw [joinComma_data_cons]
        simp only [if_neg hne2]
        simp only [List.append_assoc, List.cons_append]
        simp only [parseElems, parseItem_complete j (',' :: ((joinComma ((j2 :: t2).map Json.render)).data ++ [']', '\n'])) hwj]
        rw [ih hne2 hwf2 f hlen]

-- ======================================================================
-- DATA MODEL: chunks, configuration, writer state
-- ======================================================================

/-- A chunk submitted to the writer: a plain string, a Buffer
(represented by its string decoding), or a structured value that
`_write` serializes with `JSON.stringify`. -/
inductive Chunk where
  | str (s : String) : Chunk
  | buf (s : String) : Chunk
  | obj (j : Json) : Chunk

/-- The bytes `_write` sends to the outstream for a chunk: strings and
Buffers pass through unchanged, everything else is JSON-stringified. -/
def chunkToString : Chunk → String
  | .str s => s
  | .buf s => s
  | .obj j => j.render

/-- One invocation of the `_write` callback: the completion signal of
a single submitted item. -/
inductive CbRes where
  | ok : CbRes
  | error (msg : String) : CbRes
deriving DecidableEq

/-- The writer configuration after joi defaults are applied
(`ArrayStreamConfig` with the nested `s3` block flattened).
`localMode` is the source's `local` flag (a Lean keyword). -/
structure Config where
  folder : String
  keyPattern : String
  fileType : String
  bucket : Option String
  mkdirRecursive : Bool
  maxItems : Nat
  itemSchema : Option (Chunk → Bool)
  localMode : Bool
  overwrite : Bool
  lazy : Bool
  append : Bool
  verbose : Bool
  debug : Bool

/-- The full state of one `ArrayStream` instance together with the
keyed byte store it writes to (local files and S3 objects). -/
structure ArrayState where
  config : Config
  sep : String
  count : Nat
  fileCount : Nat
  files : List String
  key : String
  destroyed : Bool
  outstream : Option String
  fs : List (String × String)

/-- Look a path up in the keyed store. -/
def fsLookup : List (String × String) → String → Option String
  | [], _ => none
  | (q, w) :: t, p => if q = p then some w else fsLookup t p

/-- Write a path's content in the keyed store, appending a new entry
when the path is absent. -/
def fsSet : List (String × String) → String → String → List (String × String)
  | [], p, v => [(p, v)]
  | (q, w) :: t, p, v => if q = p then (q, v) :: t else (q, w) :: fsSet t p v

-- ======================================================================
-- ArrayStream METHODS
-- ======================================================================

/-- `SEPARATOR` constant of the source. -/
def SEPARATOR : String := ","

/-- `String.prototype.padStart(4, '0')`. -/
def padZero4 (s : String) : String :=
  String.mk (List.replicate (4 - s.length) '0') ++ s

/-- Replace the first occurrence of `pat` in a character list. -/
def replaceFirstL (pat sub : List Char) : List Char → List Char
  | [] => []
  | c :: rest =>
    if pat.isPrefixOf (c :: rest) then sub ++ (c :: rest).drop pat.length
    else c :: replaceFirstL pat sub rest

/-- `String.prototype.replace` with a non-global pattern: replace the
first occurrence of `pat` only. -/
def replaceFirst (s pat sub : String) : String :=
  String.mk (replaceFirstL pat.data sub.data s.data)

/-- `path.join` on the two-segment paths the writer builds. -/
def pathJoin (a b : String) : String := a ++ "/" ++ b

/-- The key `incrementKey` computes for shard index `i`:
`keyPattern.replace(/\x24\x24/, i.padStart(4, '0')) + '.' + fileType`. -/
def candidateKey (cfg : Config) (i : Nat) : String :=
  replaceFirst cfg.keyPattern "$$" (padZero4 (Nat.repr i)) ++ "." ++ cfg.fileType

/-- The local file path for shard index `i` (`getConfig().filePath`). -/
def candidatePath (cfg : Config) (i : Nat) : String :=
  pathJoin cfg.folder (candidateKey cfg i)

namespace ArrayStream

/-- `incrementKey()`: format the key from the current `fileCount`,
then advance `fileCount`. -/
def incrementKey (st : ArrayState) : ArrayState :=
  { st with key := candidateKey st.config st.fileCount,
            fileCount := st.fileCount + 1 }

/-- `incrementCount()`. -/
def incrementCount (st : ArrayState) : ArrayState :=
  { st with count := st.count + 1 }

/-- `resetCount()`. -/
def resetCount (st : ArrayState) : ArrayState :=
  { st with count := 0 }

/-- `getCount()`. -/
def getCount (st : ArrayState) : Nat := st.count

/-- `getTotalCount()`: lifetime item total, computed from the number
of shard files and the current shard's count. -/
def getTotalCount (st : ArrayState) : Nat :=
  if st.files.length > 1 then
    (st.files.length - 1) * st.config.maxItems + st.count
  else st.count

/-- `getFilePaths()`. -/
def getFilePaths (st : ArrayState) : List String := st.files

/-- `getConfig().filePath` for the current key (local mode). -/
def localPath (st : ArrayState) : String := pathJoin st.config.folder st.key

/-- The store key of the S3 object the remote branch uploads to. -/
def remoteUrl (st : ArrayState) : String :=
  "s3://" ++ (st.config.bucket.getD "") ++ "/" ++ pathJoin st.config.folder st.key

/-- The `while (newFile)` probe loop of `openOutstream`: keep
incrementing the key while `fs.statSync` finds the current path.  In
remote mode `params.filePath` is `undefined`, `statSync` throws at
once, and the loop stops without consulting the store.  The fuel is
one more than the number of store entries; the loop can never probe
more often, because each probe that continues consumes a distinct
existing path. -/
def findFreeKey : Nat → ArrayState → ArrayState
  | 0, st => st
  | fuel + 1, st =>
    if st.config.localMode && (fsLookup st.fs (localPath st)).isSome then
      findFreeKey fuel (incrementKey st)
    else st

/-- `openOutstream()`: resolve a key (probing in create-new mode),
record the file, and open the sink — truncating with a fresh `[` for
a new or overwritten file, or positioning before the closing bracket
of an existing file in append mode, deciding the separator from the
byte at `size - 3`. -/
def openOutstream (st0 : ArrayState) : ArrayState :=
  let st := if !st0.config.append && !st0.config.overwrite
            then findFreeKey (st0.fs.length + 1) st0 else st0
  if st.config.localMode then
    let p := localPath st
    let st1 := { st with files := st.files ++ [p] }
    match (if st1.config.overwrite then none else fsLookup st1.fs p) with
    | some content =>
      if 2 ≤ content.length then
        let c := content.data.getD (content.length - 3) ' '
        let useSep : Bool :=
          if 3 ≤ content.length then
            if c = '[' ∨ c = ',' then false else true
          else false
        { st1 with fs := fsSet st1.fs p (String.mk (content.data.take (content.length - 2))),
                   sep := if useSep then SEPARATOR else "",
                   outstream := some p }
      else
        -- `createWriteStream` with a negative `start` throws; the
        -- catch opens a truncating stream and writes `[`.
        { st1 with fs := fsSet st1.fs p "[", sep := "", outstream := some p }
    | none =>
      { st1 with fs := fsSet st1.fs p "[", sep := "", outstream := some p }
  else
    let k := pathJoin st.config.folder st.key
    let u := remoteUrl st
    -- PassThrough into a ManagedUpload: an empty buffer, no `[`.
    { st with files := st.files ++ [k], fs := fsSet st.fs u "", outstream := some u }

/-- A write on the open outstream: append bytes to the open entry of
the store.  (The source never reaches the `none` case: every call is
guarded by an open handle.) -/
def outWrite (st : ArrayState) (s : String) : ArrayState :=
  match st.outstream with
  | some p => { st with fs := fsSet st.fs p (((fsLookup st.fs p).getD "") ++ s) }
  | none => st

/-- `resetOutstream(final)`: end the open stream with the closing
bracket and newline, then either stop (final) or rotate — reset the
count, advance the key, and open the next sink. -/
def resetOutstream (st : ArrayState) (finalize : Bool) : ArrayState :=
  let st1 := match st.outstream with
             | some _ => outWrite st "]\n"
             | none => st
  if finalize then { st1 with outstream := none }
  else openOutstream (incrementKey (resetCount st1))

/-- `flushOutstream(final)`: a no-op once destroyed; otherwise mark
destroyed when finalizing and delegate to `resetOutstream`. -/
def flushOutstream (st : ArrayState) (finalize : Bool) : ArrayState :=
  if st.destroyed then st
  else
    let st1 := if finalize then { st with destroyed := true } else st
    resetOutstream st1 finalize

/-- `closeArrayStream()`: `end()` the stream, which runs `_final` and
thus `flushOutstream(true)`. -/
def closeArrayStream (st : ArrayState) : ArrayState :=
  if st.destroyed then st else flushOutstream st true

/-- `validateChunk(chunk)`: convert a Buffer to its string decoding,
then apply the validation schema (abstracted, per the design notes, as
a pass/fail function). -/
def validateChunk (schema : Chunk → Bool) (chunk : Chunk) : Option String :=
  let c := match chunk with
           | .buf s => Chunk.str s
           | other => other
  if schema c then none else some "ItemValidationError"

/-- Continuation of `_write` after the validation step: serialize the
chunk, rotate if the current shard is full, write separator plus
bytes, update the separator, and count the item.  Returns the state
and the callback invocations, in order, appended to `pre`. -/
def writeCont (st : ArrayState) (chunk : Chunk) (pre : List CbRes) :
    ArrayState × List CbRes :=
  let s := chunkToString chunk
  match st.outstream with
  | none => (st, pre ++ [CbRes.error "TypeError"])
  | some _ =>
    let st1 := if st.count ≥ st.config.maxItems then resetOutstream st false else st
    let st2 := outWrite st1 (st1.sep ++ s)
    let st3 := { st2 with sep := if st2.sep = "" then SEPARATOR else st2.sep }
    (incrementCount st3, pre ++ [CbRes.ok])

/-- `_write(chunk, encoding, cb)`.  The destroyed guard of the source
calls `cb()` but does not return, so execution falls through into the
normal path; the immediate callback is recorded first.  Then: lazy
open, per-item validation, and the write continuation. -/
def writeStep (st0 : ArrayState) (chunk : Chunk) : ArrayState × List CbRes :=
  let pre : List CbRes := if st0.destroyed then [CbRes.ok] else []
  let st1 := if st0.config.lazy && st0.outstream.isNone then openOutstream st0 else st0
  match st1.config.itemSchema with
  | some f =>
    match validateChunk f chunk with
    | some e => (st1, pre ++ [CbRes.error e])
    | none => writeCont st1 chunk pre
  | none => writeCont st1 chunk pre

end ArrayStream

-- ======================================================================
-- CONSTRUCTOR
-- ======================================================================

/-- A character accepted by the joi regexes for `folder` and
`keyPattern`. -/
def keyChar (c : Char) : Bool := c.isAlpha || c = '_' || c = '-'

/-- The unanchored joi regex for `keyPattern`: some key
character immediately followed by the two-dollar placeholder. -/
def hasPatternRun : List Char → Bool
  | c1 :: c2 :: c3 :: rest =>
    (keyChar c1 && c2 = '$' && c3 = '$') || hasPatternRun (c2 :: c3 :: rest)
  | _ => false

/-- The joi schema `bufferedArrayConfigSchema` on an already-typed
configuration: folder matches its regex, the key pattern contains the
placeholder run, the file type is `json`, and `maxItems ≥ 1`. -/
def joiOk (cfg : Config) : Bool :=
  cfg.folder.data.any keyChar
    && hasPatternRun cfg.keyPattern.data
    && cfg.fileType == "json"
    && decide (1 ≤ cfg.maxItems)

/-- The synchronous validation portion of the `ArrayStream`
constructor, in source order: the joi schema, the append/overwrite
exclusivity check, trimming a duplicated trailing extension from the
key pattern, and the bucket requirement for remote mode.  No part of
it touches the store. -/
def validateConfig (cfg : Config) : Except String Config :=
  if !joiOk cfg then .error "ValidationError" else
  if cfg.append && cfg.overwrite then
    .error "ArrayStream: config.append and config.overwrite cannot both be true"
  else
    let trimmed := String.mk (cfg.keyPattern.data.take (cfg.keyPattern.length - (cfg.fileType.length + 1)))
    let cfg1 := if ("." ++ cfg.fileType).data.isSuffixOf cfg.keyPattern.data then
        { cfg with keyPattern := trimmed }
      else cfg
    if !cfg1.localMode && (cfg1.bucket.getD "" == "") then
      .error "ArrayStream: config.s3.bucket is required if config.local === false"
    else .ok cfg1

/-- State initialization of the constructor after validation:
counters, file list, the first key, and — unless `lazy` — the first
sink. -/
def initState (cfg : Config) (fs0 : List (String × String)) : ArrayState :=
  let st : ArrayState :=
    { config := cfg, sep := "", count := 0, fileCount := 0, files := [],
      key := "", destroyed := false, outstream := none, fs := fs0 }
  let st1 := ArrayStream.incrementKey st
  if cfg.lazy then st1 else ArrayStream.openOutstream st1

/-- `new ArrayStream(args)` against an initial store: validation, then
state initialization. -/
def mkArrayStream (cfg : Config) (fs0 : List (String × String)) :
    Except String ArrayState :=
  (validateConfig cfg).map (fun c => initState c fs0)

/-- Submit a list of chunks in order, one `_write` per chunk. -/
def runItems (st : ArrayState) (xs : List Chunk) : ArrayState :=
  xs.foldl (fun s c => (ArrayStream.writeStep s c).1) st

/-- An externally invokable writer operation. -/
inductive Op where
  | write (c : Chunk) : Op
  | close : Op

/-- Apply one operation. -/
def applyOp (st : ArrayState) : Op → ArrayState
  | .write c => (ArrayStream.writeStep st c).1
  | .close => ArrayStream.closeArrayStream st

/-- Apply a sequence of operations. -/
def runOps (st : ArrayState) (ops : List Op) : ArrayState := ops.foldl applyOp st

-- ======================================================================
-- PURE LIST MACHINERY: shard assignment
-- ======================================================================

/-- Split a list into consecutive chunks of `k` elements (the last one
possibly shorter); the shard assignment of a submitted sequence. -/
def chunksOf (k : Nat) : List α → List (List α)
  | [] => []
  | x :: xs => (x :: xs.take (k - 1)) :: chunksOf k (xs.drop (k - 1))
termination_by l => l.length
decreasing_by simp [List.length_drop]; omega

/-- The shard contents as the writer actually accumulates them: `b` is
the partial current shard; a full shard is emitted before a new item
starts the next one. -/
def fill (k : Nat) : List α → List α → List (List α)
  | b, [] => [b]
  | b, x :: rest =>
    if k ≤ b.length then b :: fill k [x] rest else fill k (b ++ [x]) rest

theorem fill_ne_nil (k : Nat) (b : List α) (rest : List α) : fill k b rest ≠ [] := by
  induction rest generalizing b with
  | nil => simp [fill]
  | cons x t ih => by_cases h : k ≤ b.length <;> simp [fill, h, ih]

theorem chunksOf_cons (k : Nat) (x : α) (xs : List α) :
    chunksOf k (x :: xs) = (x :: xs.take (k - 1)) :: chunksOf k (xs.drop (k - 1)) := by
  rw [chunksOf]

/-- The writer's accumulation scheme agrees with the take/drop chunk
decomposition. -/
theorem fill_eq_chunksOf (k : Nat) (hk : 1 ≤ k) :
    ∀ (rest b : List α), b.length ≤ k → b ≠ [] →
      fill k b rest = chunksOf k (b ++ rest) := by
  intro rest
  induction rest with
  | nil =>
    intro b hbk hbne
    cases b with
    | nil => exact absurd rfl hbne
    | cons y ys =>
      rw [fill, List.append_nil, chunksOf_cons]
      have h1 : ys.take (k - 1) = ys :=
        List.take_of_length_le (by simp at hbk; omega)
      have h2 : ys.drop (k - 1) = [] :=
        List.drop_eq_nil_of_le (by simp at hbk; omega)
      simp [h1, h2, chunksOf]
  | cons x rest ih =>
    intro b hbk hbne
    rw [fill]
    by_cases h : k ≤ b.length
    · have hbl : b.length = k := Nat.le_antisymm hbk h
      rw [if_pos h, ih [x] (by simpa using hk) (by simp)]
      cases b with
      | nil => exact absurd rfl hbne
      | cons y ys =>
        have hys : ys.length = k - 1 := by simp at hbl; omega
        have h1 : (ys ++ x :: rest).take (k - 1) = ys := by
          rw [← hys, List.take_left]
        have h2 : (ys ++ x :: rest).drop (k - 1) = x :: rest := by
          rw [← hys, List.drop_left]
        simp only [List.singleton_append]
        conv_rhs => rw [List.cons_append, chunksOf_cons, h1, h2]
    · rw [if_neg h, ih (b ++ [x]) (by simp; omega) (by simp)]
      simp

theorem chunksOf_length_aux (k : Nat) (hk : 1 ≤ k) :
    ∀ (n : Nat) (xs : List α), xs.length ≤ n →
      (chunksOf k xs).length = (xs.length + k - 1) / k := by
  intro n
  induction n with
  | zero =>
    intro xs hxs
    have : xs = [] := List.eq_nil_of_length_eq_zero (Nat.le_zero.mp hxs)
    subst this
    simp [chunksOf, Nat.div_eq_of_lt (by omega : k - 1 < k)]
  | succ n ih =>
    intro xs hxs
    cases xs with
    | nil => simp [chunksOf, Nat.div_eq_of_lt (by omega : k - 1 < k)]
    | cons x t =>
      rw [chunksOf_cons, List.length_cons, List.length_cons]
      have hdl : (t.drop (k - 1)).length = t.length - (k - 1) := List.length_drop _ _
      have hrec := ih (t.drop (k - 1)) (by simp at hxs ⊢; omega)
      rw [hrec, hdl]
      have hR : t.length + 1 + k - 1 = t.length + k := by omega
      rw [hR, Nat.add_div_right t.length hk]
      rcases le_or_lt t.length (k - 1) with hle | hlt
      · have h0 : t.length - (k - 1) = 0 := by omega
        rw [h0, Nat.zero_add, Nat.div_eq_of_lt (by omega : k - 1 < k),
            Nat.div_eq_of_lt (by omega : t.length < k)]
      · have h1 : t.length - (k - 1) + k - 1 = t.length := by omega
        rw [h1]

theorem chunksOf_length (k : Nat) (hk : 1 ≤ k) (xs : List α) :
    (chunksOf k xs).length = (xs.length + k - 1) / k :=
  chunksOf_length_aux k hk xs.length xs (Nat.le_refl _)

theorem chunksOf_getD_aux (k : Nat) (hk : 1 ≤ k) :
    ∀ (n : Nat) (xs : List α), xs.length ≤ n →
      ∀ i, i < (chunksOf k xs).length →
        (chunksOf k xs).getD i [] = (xs.drop (i * k)).take k := by
  intro n
  induction n with
  | zero =>
    intro xs hxs i hi
    have : xs = [] := List.eq_nil_of_length_eq_zero (Nat.le_zero.mp hxs)
    subst this
    simp [chunksOf] at hi
  | succ n ih =>
    intro xs hxs i hi
    cases xs with
    | nil => simp [chunksOf] at hi
    | cons x t =>
      rw [chunksOf_cons]
      cases i with
      | zero =>
        simp only [List.getD_cons_zero, Nat.zero_mul, List.drop_zero]
        cases k with
        | zero => omega
        | succ k2 => simp [List.take_succ_cons]
      | succ i2 =>
        rw [chunksOf_cons] at hi
        have hi2 : i2 < (chunksOf k (t.drop (k - 1))).length := by
          simpa using Nat.succ_lt_succ_iff.mp (by simpa using hi)
        have hrec := ih (t.drop (k - 1)) (by simp at hxs ⊢; omega) i2 hi2
        show (chunksOf k (t.drop (k - 1))).getD i2 [] = _
        rw [hrec, List.drop_drop]
        have hsm : (i2 + 1) * k = i2 * k + k := Nat.succ_mul i2 k
        have harith : k - 1 + i2 * k = (i2 + 1) * k - 1 := by
          rw [hsm]; omega
        rw [harith]
        have hpos : 1 ≤ (i2 + 1) * k := by
          rw [hsm]; omega
        have hd : (x :: t).drop ((i2 + 1) * k) = t.drop ((i2 + 1) * k - 1) := by
          rw [show (i2 + 1) * k = ((i2 + 1) * k - 1) + 1 by omega]
          simp
        rw [hd]

theorem chunksOf_getD (k : Nat) (hk : 1 ≤ k) (xs : List α)
    (i : Nat) (hi : i < (chunksOf k xs).length) :
    (chunksOf k xs).getD i [] = (xs.drop (i * k)).take k :=
  chunksOf_getD_aux k hk xs.length xs (Nat.le_refl _) i hi

theorem chunksOf_mem_length_le (k : Nat) (hk : 1 ≤ k) (xs : List α)
    (c : List α) (hc : c ∈ chunksOf k xs) : c.length ≤ k := by
  rcases List.mem_iff_getElem.mp hc with ⟨i, hi, rfl⟩
  have := chunksOf_getD k hk xs i hi
  rw [List.getD_eq_getElem _ _ hi] at this
  rw [this, List.length_take]
  omega

theorem chunksOf_mem_ne_nil_aux (k : Nat) :
    ∀ (n : Nat) (xs : List α), xs.length ≤ n → ∀ c ∈ chunksOf k xs, c ≠ [] := by
  intro n
  induction n with
  | zero =>
    intro xs hxs
    have : xs = [] := List.eq_nil_of_length_eq_zero (Nat.le_zero.mp hxs)
    subst this
    simp [chunksOf]
  | succ n ih =>
    intro xs hxs c hc
    cases xs with
    | nil => simp [chunksOf] at hc
    | cons x t =>
      rw [chunksOf_cons] at hc
      rcases List.mem_cons.mp hc with h | h
      · subst h; simp
      · exact ih (t.drop (k - 1)) (by simp at hxs ⊢; omega) c h

theorem chunksOf_mem_ne_nil (k : Nat) (xs : List α) (c : List α)
    (hc : c ∈ chunksOf k xs) : c ≠ [] :=
  chunksOf_mem_ne_nil_aux k xs.length xs (Nat.le_refl _) c hc

theorem chunksOf_map_aux (k : Nat) (f : α → β) :
    ∀ (n : Nat) (xs : List α), xs.length ≤ n →
      chunksOf k (xs.map f) = (chunksOf k xs).map (List.map f) := by
  intro n
  induction n with
  | zero =>
    intro xs hxs
    have : xs = [] := List.eq_nil_of_length_eq_zero (Nat.le_zero.mp hxs)
    subst this
    simp [chunksOf]
  | succ n ih =>
    intro xs hxs
    cases xs with
    | nil => simp [chunksOf]
    | cons x t =>
      rw [List.map_cons, chunksOf_cons, chunksOf_cons]
      rw [← List.map_take, ← List.map_drop, ih (t.drop (k - 1)) (by simp at hxs ⊢; omega)]
      simp [List.map_cons]

theorem chunksOf_map (k : Nat) (f : α → β) (xs : List α) :
    chunksOf k (xs.map f) = (chunksOf k xs).map (List.map f) :=
  chunksOf_map_aux k f xs.length xs (Nat.le_refl _)

-- ======================================================================
-- STRING AND STORE LEMMAS
-- ======================================================================

theorem str_empty_append (s : String) : "" ++ s = s := by
  cases s with
  | mk data => show String.mk ([] ++ data) = String.mk data; rw [List.nil_append]

theorem joinComma_append_singleton (l : List String) (s : String) (hne : l ≠ []) :
    joinComma (l ++ [s]) = joinComma l ++ "," ++ s := by
  induction l with
  | nil => exact absurd rfl hne
  | cons y t ih =>
    cases t with
    | nil => simp [joinComma]
    | cons z t2 =>
      have ht : (z :: t2) ≠ ([] : List String) := by simp
      show joinComma (y :: ((z :: t2) ++ [s])) = _
      have h1 : joinComma (y :: ((z :: t2) ++ [s])) = y ++ "," ++ joinComma ((z :: t2) ++ [s]) := by
        cases t2 <;> simp [joinComma]
      have h2 : joinComma (y :: z :: t2) = y ++ "," ++ joinComma (z :: t2) := by
        simp [joinComma]
      rw [h1, ih ht, h2]
      simp [String.append_assoc]

theorem shardOpen_nil : shardOpen [] = "[" := by
  simp [shardOpen, joinComma]

theorem shardOpen_singleton (s : String) : shardOpen [s] = "[" ++ s := by
  simp [shardOpen, joinComma]

theorem shardOpen_append (b : List String) (s : String) (hne : b ≠ []) :
    shardOpen b ++ ("," ++ s) = shardOpen (b ++ [s]) := by
  simp [shardOpen, joinComma_append_singleton b s hne, String.append_assoc]

theorem shardOpen_close (b : List String) : shardOpen b ++ "]\n" = shardClosed b := by
  simp [shardOpen, shardClosed, String.append_assoc]

theorem fsLookup_eq_none_iff (l : List (String × String)) (p : String) :
    fsLookup l p = none ↔ ∀ q ∈ l, q.1 ≠ p := by
  induction l with
  | nil => simp [fsLookup]
  | cons e t ih =>
    rw [show fsLookup (e :: t) p = if e.1 = p then some e.2 else fsLookup t p from rfl]
    by_cases h : e.1 = p
    · rw [if_pos h]
      constructor
      · intro hcontra; simp at hcontra
      · intro hall
        exact absurd h (hall e (List.mem_cons_self e t))
    · rw [if_neg h, ih]
      constructor
      · intro hall q hq
        rcases List.mem_cons.mp hq with rfl | hq2
        · exact h
        · exact hall q hq2
      · intro hall q hq
        exact hall q (List.mem_cons_of_mem e hq)

theorem fsLookup_append_last (l : List (String × String)) (p v : String)
    (h : ∀ q ∈ l, q.1 ≠ p) : fsLookup (l ++ [(p, v)]) p = some v := by
  induction l with
  | nil => simp [fsLookup]
  | cons e t ih =>
    have he : e.1 ≠ p := h e (List.mem_cons_self e t)
    show fsLookup (e :: (t ++ [(p, v)])) p = some v
    rw [show fsLookup (e :: (t ++ [(p, v)])) p
          = if e.1 = p then some e.2 else fsLookup (t ++ [(p, v)]) p from rfl]
    rw [if_neg he, ih (fun q hq => h q (List.mem_cons_of_mem e hq))]

theorem fsSet_append_last (l : List (String × String)) (p v w : String)
    (h : ∀ q ∈ l, q.1 ≠ p) : fsSet (l ++ [(p, v)]) p w = l ++ [(p, w)] := by
  induction l with
  | nil => simp [fsSet]
  | cons e t ih =>
    have he : e.1 ≠ p := h e (List.mem_cons_self e t)
    show fsSet (e :: (t ++ [(p, v)])) p w = e :: (t ++ [(p, w)])
    rw [show fsSet (e :: (t ++ [(p, v)])) p w
          = if e.1 = p then (e.1, w) :: (t ++ [(p, v)]) else e :: fsSet (t ++ [(p, v)]) p w from rfl]
    rw [if_neg he, ih (fun q hq => h q (List.mem_cons_of_mem e hq))]

theorem fsSet_of_free (l : List (String × String)) (p v : String)
    (h : ∀ q ∈ l, q.1 ≠ p) : fsSet l p v = l ++ [(p, v)] := by
  induction l with
  | nil => simp [fsSet]
  | cons e t ih =>
    have he : e.1 ≠ p := h e (List.mem_cons_self e t)
    show fsSet (e :: t) p v = e :: (t ++ [(p, v)])
    rw [show fsSet (e :: t) p v
          = if e.1 = p then (e.1, v) :: t else e :: fsSet t p v from rfl]
    rw [if_neg he, ih (fun q hq => h q (List.mem_cons_of_mem e hq))]

theorem fsLookup_append_none (l1 l2 : List (String × String)) (p : String)
    (h : ∀ q ∈ l1, q.1 ≠ p) : fsLookup (l1 ++ l2) p = fsLookup l2 p := by
  induction l1 with
  | nil => simp
  | cons e t ih =>
    have he : e.1 ≠ p := h e (List.mem_cons_self e t)
    show fsLookup (e :: (t ++ l2)) p = fsLookup l2 p
    rw [show fsLookup (e :: (t ++ l2)) p
          = if e.1 = p then some e.2 else fsLookup (t ++ l2) p from rfl]
    rw [if_neg he, ih (fun q hq => h q (List.mem_cons_of_mem e hq))]

-- ======================================================================
-- THE STORE SHAPE OF A RUN
-- ======================================================================

/-- The closed shard files of a run: shard `i + j` holds the rendered
items of the `j`-th chunk. -/
def shardFiles (cfg : Config) : Nat → List (List String) → List (String × String)
  | _, [] => []
  | i, c :: rest => (candidatePath cfg i, shardClosed c) :: shardFiles cfg (i + 1) rest

theorem shardFiles_fst (cfg : Config) :
    ∀ (css : List (List String)) (i : Nat) (q : String × String),
      q ∈ shardFiles cfg i css → ∃ j, j < css.length ∧ q.1 = candidatePath cfg (i + j) := by
  intro css
  induction css with
  | nil => intro i q hq; simp [shardFiles] at hq
  | cons c rest ih =>
    intro i q hq
    rw [shardFiles] at hq
    rcases List.mem_cons.mp hq with h | h
    · exact ⟨0, by simp, by simp [h]⟩
    · rcases ih (i + 1) q h with ⟨j, hj, hq1⟩
      exact ⟨j + 1, by simp [List.length_cons]; omega, by rw [hq1]; congr 1; omega⟩

theorem shardFiles_append (cfg : Config) :
    ∀ (css : List (List String)) (i : Nat) (c : List String),
      shardFiles cfg i (css ++ [c])
        = shardFiles cfg i css ++ [(candidatePath cfg (i + css.length), shardClosed c)] := by
  intro css
  induction css with
  | nil => intro i c; simp [shardFiles]
  | cons c0 rest ih =>
    intro i c
    show shardFiles cfg i (c0 :: (rest ++ [c])) = _
    rw [shardFiles, shardFiles, ih (i + 1) c, List.cons_append, List.length_cons]
    have h : i + (rest.length + 1) = i + 1 + rest.length := by omega
    rw [h]

/-- Pairwise distinctness of the first `n` candidate paths: the
freshness assumption under which the create-new probe loop and the
rotation bookkeeping are exact. -/
def CandInj (cfg : Config) (n : Nat) : Prop :=
  ∀ j, j < n → ∀ i, i < j → candidatePath cfg i ≠ candidatePath cfg j

instance (cfg : Config) (n : Nat) : Decidable (CandInj cfg n) := by
  unfold CandInj
  infer_instance

theorem CandInj.mono {cfg : Config} {m n : Nat} (h : m ≤ n) (hc : CandInj cfg n) :
    CandInj cfg m := fun j hj i hij => hc j (Nat.lt_of_lt_of_le hj h) i hij

/-- The writer state in the middle of a run: `D` the chunks already
rotated out, `b` the serialized items of the active shard (nonempty). -/
def midState (cfg : Config) (D : List (List String)) (b : List String) : ArrayState :=
  { config := cfg, sep := ",", count := b.length, fileCount := D.length + 1,
    files := (List.range (D.length + 1)).map (candidatePath cfg),
    key := candidateKey cfg D.length,
    destroyed := false,
    outstream := some (candidatePath cfg D.length),
    fs := shardFiles cfg 0 D ++ [(candidatePath cfg D.length, shardOpen b)] }

/-- The writer state after end-of-input from `midState cfg D b`. -/
def endState (cfg : Config) (D : List (List String)) (b : List String) : ArrayState :=
  { config := cfg, sep := ",", count := b.length, fileCount := D.length + 1,
    files := (List.range (D.length + 1)).map (candidatePath cfg),
    key := candidateKey cfg D.length,
    destroyed := true,
    outstream := none,
    fs := shardFiles cfg 0 (D ++ [b]) }

/-- Keys of the closed portion of a mid-run store never collide with a
fresh candidate index. -/
theorem shardFiles_fst_ne (cfg : Config) (D : List (List String)) (m : Nat)
    (hm : D.length ≤ m) (hinj : CandInj cfg (m + 1)) :
    ∀ q ∈ shardFiles cfg 0 D, q.1 ≠ candidatePath cfg m := by
  intro q hq
  rcases shardFiles_fst cfg D 0 q hq with ⟨j, hj, hq1⟩
  rw [hq1, Nat.zero_add]
  exact hinj m (by omega) j (by omega)

-- ======================================================================
-- STEP LEMMAS FOR A CREATE-MODE LOCAL RUN
-- ======================================================================

theorem findFreeKey_succ (n : Nat) (st : ArrayState) :
    ArrayStream.findFreeKey (n + 1) st =
      if st.config.localMode && (fsLookup st.fs (ArrayStream.localPath st)).isSome then
        ArrayStream.findFreeKey n (ArrayStream.incrementKey st)
      else st := rfl

/-- Opening a sink in create-new local mode when the current candidate
path is free: the probe loop stops at once, the file is recorded, and
a fresh entry holding `[` is created. -/
theorem openOutstream_fresh (st : ArrayState)
    (hloc : st.config.localMode = true) (happ : st.config.append = false)
    (hovw : st.config.overwrite = false)
    (hfree : fsLookup st.fs (ArrayStream.localPath st) = none) :
    ArrayStream.openOutstream st =
      { st with files := st.files ++ [ArrayStream.localPath st],
                fs := st.fs ++ [(ArrayStream.localPath st, "[")],
                sep := "",
                outstream := some (ArrayStream.localPath st) } := by
  have hfree2 : ∀ q ∈ st.fs, q.1 ≠ ArrayStream.localPath st :=
    (fsLookup_eq_none_iff _ _).mp hfree
  unfold ArrayStream.openOutstream
  rw [happ, hovw]
  simp only [Bool.not_false, Bool.and_self, if_true]
  rw [findFreeKey_succ, hloc, hfree]
  simp only [Option.isSome_none, Bool.true_and, Bool.false_eq_true, if_false, hloc, if_true]
  rw [hovw]
  simp only [Bool.false_eq_true, if_false]
  rw [show ({ st with files := st.files ++ [ArrayStream.localPath st] } : ArrayState).fs = st.fs from rfl]
  rw [hfree]
  rw [fsSet_of_free st.fs (ArrayStream.localPath st) "[" hfree2]

/-- The configuration shape of the standard run scenario: a local
create-new lazily-opened writer with no per-item schema and
`maxItems = k ≥ 1`. -/
structure RunCfg (cfg : Config) (k : Nat) : Prop where
  loc : cfg.localMode = true
  app : cfg.append = false
  ovw : cfg.overwrite = false
  lzy : cfg.lazy = true
  schema : cfg.itemSchema = none
  mx : cfg.maxItems = k
  kpos : 1 ≤ k

/-- A write on an open outstream whose entry holds `c` appends to it. -/
theorem outWrite_some (st : ArrayState) (p s c : String)
    (hout : st.outstream = some p) (hlook : fsLookup st.fs p = some c) :
    ArrayStream.outWrite st s = { st with fs := fsSet st.fs p (c ++ s) } := by
  unfold ArrayStream.outWrite
  rw [hout]
  simp only [hlook, Option.getD_some]

/-- One accepted structured item from a mid-run state: rotate first
when the shard is full, then append the serialized item to the active
shard. -/
theorem writeStep_mid (cfg : Config) (k : Nat) (hrun : RunCfg cfg k)
    (D : List (List String)) (b : List String) (j : Json)
    (hb : b ≠ []) (hbk : b.length ≤ k) (hinj : CandInj cfg (D.length + 2)) :
    (ArrayStream.writeStep (midState cfg D b) (Chunk.obj j)).1 =
      if k ≤ b.length then midState cfg (D ++ [b]) [j.render]
      else midState cfg D (b ++ [j.render]) := by
  have hcp : ∀ m, pathJoin cfg.folder (candidateKey cfg m) = candidatePath cfg m :=
    fun _ => rfl
  have hne1 : ∀ q ∈ shardFiles cfg 0 D, q.1 ≠ candidatePath cfg D.length :=
    shardFiles_fst_ne cfg D D.length (Nat.le_refl _) (CandInj.mono (by omega) hinj)
  have hlook : fsLookup (shardFiles cfg 0 D ++ [(candidatePath cfg D.length, shardOpen b)])
      (candidatePath cfg D.length) = some (shardOpen b) := fsLookup_append_last _ _ _ hne1
  by_cases hrot : b.length ≥ k
  · -- the shard is full: rotation, then the item opens the next shard
    have hne2 : ∀ q ∈ shardFiles cfg 0 (D ++ [b]), q.1 ≠ candidatePath cfg (D.length + 1) :=
      shardFiles_fst_ne cfg (D ++ [b]) (D.length + 1) (by simp) hinj
    have hset1 : fsSet (shardFiles cfg 0 D ++ [(candidatePath cfg D.length, shardOpen b)])
        (candidatePath cfg D.length) (shardOpen b ++ "]\n")
        = shardFiles cfg 0 (D ++ [b]) := by
      rw [fsSet_append_last _ _ _ _ hne1, shardOpen_close, shardFiles_append cfg D 0 b, Nat.zero_add]
    have hfree2 : fsLookup (shardFiles cfg 0 (D ++ [b])) (candidatePath cfg (D.length + 1)) = none :=
      (fsLookup_eq_none_iff _ _).mpr hne2
    have hset2 : fsSet (shardFiles cfg 0 (D ++ [b])) (candidatePath cfg (D.length + 1)) "["
        = shardFiles cfg 0 (D ++ [b]) ++ [(candidatePath cfg (D.length + 1), "[")] :=
      fsSet_of_free _ _ _ hne2
    have hlook2 : fsLookup (shardFiles cfg 0 (D ++ [b]) ++ [(candidatePath cfg (D.length + 1), "[")])
        (candidatePath cfg (D.length + 1)) = some "[" := fsLookup_append_last _ _ _ hne2
    have hset3 : fsSet (shardFiles cfg 0 (D ++ [b]) ++ [(candidatePath cfg (D.length + 1), "[")])
        (candidatePath cfg (D.length + 1)) ("[" ++ ("" ++ j.render))
        = shardFiles cfg 0 (D ++ [b]) ++ [(candidatePath cfg (D.length + 1), shardOpen [j.render])] := by
      rw [fsSet_append_last _ _ _ _ hne2, str_empty_append, ← shardOpen_singleton]
    rw [if_pos (by omega : k ≤ b.length)]
    simp only [ArrayStream.writeStep, ArrayStream.writeCont, ArrayStream.outWrite,
      ArrayStream.incrementCount, ArrayStream.resetOutstream, ArrayStream.resetCount,
      ArrayStream.incrementKey, ArrayStream.openOutstream, ArrayStream.findFreeKey,
      ArrayStream.localPath, midState, chunkToString,
      hrun.schema, hrun.mx, hrun.loc, hrun.app, hrun.ovw, hrot, hcp,
      hlook, hset1, hfree2, hset2, hlook2, hset3,
      Option.isNone_some, Bool.and_false, Bool.false_eq_true, if_false, if_true,
      Bool.not_false, Bool.and_self, Option.isSome_none, Bool.true_and,
      Option.getD_some, SEPARATOR, List.length_append, List.length_cons, List.length_nil,
      List.range_succ, List.map_append, List.map_cons, List.map_nil, ite_true, ite_false,
      String.reduceEq, reduceIte]
  · -- room in the current shard: plain append
    have hset : fsSet (shardFiles cfg 0 D ++ [(candidatePath cfg D.length, shardOpen b)])
        (candidatePath cfg D.length) (shardOpen b ++ ("," ++ j.render))
        = shardFiles cfg 0 D ++ [(candidatePath cfg D.length, shardOpen (b ++ [j.render]))] := by
      rw [fsSet_append_last _ _ _ _ hne1, shardOpen_append b j.render hb]
    rw [if_neg (by omega : ¬ k ≤ b.length)]
    simp only [ArrayStream.writeStep, ArrayStream.writeCont, ArrayStream.outWrite,
      ArrayStream.incrementCount, midState, chunkToString,
      hrun.schema, hrun.mx, hrot,
      Option.isNone_some, Bool.and_false, Bool.false_eq_true, if_false,
      hlook, hset, Option.getD_some, SEPARATOR,
      String.reduceEq, reduceIte, ite_true, ite_false]
    simp [midState, SEPARATOR]

theorem runItems_cons (st : ArrayState) (c : Chunk) (cs : List Chunk) :
    runItems st (c :: cs) = runItems ((ArrayStream.writeStep st c).1) cs := rfl

theorem getLastD_ne_nil (l : List α) (h : l ≠ []) (d1 d2 : α) :
    l.getLastD d1 = l.getLastD d2 := by
  cases l with
  | nil => exact absurd rfl h
  | cons a t => rfl

/-- The first accepted item of a lazy fresh run opens shard 0 and
writes `[` plus the item. -/
theorem writeStep_first (cfg : Config) (k : Nat) (hrun : RunCfg cfg k) (x : Json) :
    (ArrayStream.writeStep (initState cfg []) (Chunk.obj x)).1 = midState cfg [] [x.render] := by
  have hcp : ∀ m, pathJoin cfg.folder (candidateKey cfg m) = candidatePath cfg m :=
    fun _ => rfl
  simp only [initState, ArrayStream.incrementKey, hrun.lzy, if_true,
    ArrayStream.writeStep, ArrayStream.writeCont, ArrayStream.outWrite,
    ArrayStream.incrementCount, ArrayStream.openOutstream, ArrayStream.findFreeKey,
    ArrayStream.localPath, chunkToString, fsLookup, fsSet,
    hrun.schema, hrun.mx, hrun.loc, hrun.app, hrun.ovw, hcp,
    Option.isNone_some, Option.isNone_none, Bool.and_false, Bool.and_true,
    Bool.false_eq_true, Bool.true_eq_false, if_false, if_true,
    Bool.not_false, Bool.and_self, Option.isSome_none, Bool.true_and,
    Option.getD_some, SEPARATOR, List.length_nil, List.nil_append,
    String.reduceEq, reduceIte, ite_true, ite_false]
  rw [if_neg (by have := hrun.kpos; omega : ¬ (0 ≥ k))]
  simp only [midState, shardFiles, List.range_succ, List.range_zero, List.map_nil,
    List.map_append, List.map_cons, List.nil_append, str_empty_append, shardOpen_singleton,
    List.length_nil, List.length_cons, Nat.zero_add]
  simp [fsSet, fsLookup, str_empty_append]

/-- End-of-input from a mid-run state finalizes the active shard. -/
theorem close_mid (cfg : Config)
    (D : List (List String)) (b : List String)
    (hinj : CandInj cfg (D.length + 1)) :
    ArrayStream.closeArrayStream (midState cfg D b) = endState cfg D b := by
  have hne1 : ∀ q ∈ shardFiles cfg 0 D, q.1 ≠ candidatePath cfg D.length :=
    shardFiles_fst_ne cfg D D.length (Nat.le_refl _) hinj
  have hlook : fsLookup (shardFiles cfg 0 D ++ [(candidatePath cfg D.length, shardOpen b)])
      (candidatePath cfg D.length) = some (shardOpen b) := fsLookup_append_last _ _ _ hne1
  have hset1 : fsSet (shardFiles cfg 0 D ++ [(candidatePath cfg D.length, shardOpen b)])
      (candidatePath cfg D.length) (shardOpen b ++ "]\n")
      = shardFiles cfg 0 (D ++ [b]) := by
    rw [fsSet_append_last _ _ _ _ hne1, shardOpen_close, shardFiles_append cfg D 0 b, Nat.zero_add]
  simp only [ArrayStream.closeArrayStream, ArrayStream.flushOutstream,
    ArrayStream.resetOutstream, ArrayStream.outWrite, midState, endState,
    Bool.false_eq_true, if_false, if_true, hlook, hset1, Option.getD_some,
    ite_true, ite_false, reduceIte]

/-- Iterating accepted items from a mid-run state produces exactly the
writer's accumulation `fill`. -/
theorem runItems_mid (cfg : Config) (k : Nat) (hrun : RunCfg cfg k) :
    ∀ (rest : List Json) (D : List (List String)) (b : List String),
      b ≠ [] → b.length ≤ k → CandInj cfg (D.length + rest.length + 2) →
      runItems (midState cfg D b) (rest.map Chunk.obj) =
        midState cfg (D ++ (fill k b (rest.map Json.render)).dropLast)
                     ((fill k b (rest.map Json.render)).getLastD []) := by
  intro rest
  induction rest with
  | nil =>
    intro D b hb hbk hinj
    simp [runItems, fill]
  | cons x t ih =>
    intro D b hb hbk hinj
    have hstep := writeStep_mid cfg k hrun D b x hb hbk
      (CandInj.mono (by simp only [List.length_cons]; omega) hinj)
    rw [List.map_cons, runItems_cons, hstep]
    by_cases hrot : k ≤ b.length
    · rw [if_pos hrot]
      have ihh := ih (D ++ [b]) [x.render] (by simp) (by simpa using hrun.kpos)
        (CandInj.mono (by simp only [List.length_append, List.length_cons, List.length_nil]; omega) hinj)
      rw [ihh]
      have hfe : fill k b ((x :: t).map Json.render)
          = b :: fill k [x.render] (t.map Json.render) := by
        rw [List.map_cons, fill, if_pos hrot]
      rw [hfe]
      have hfne := fill_ne_nil k [x.render] (t.map Json.render)
      rw [List.dropLast_cons_of_ne_nil hfne]
      congr 1
      · simp
      · show (fill k [x.render] (t.map Json.render)).getLastD [] =
            (b :: fill k [x.render] (t.map Json.render)).getLastD []
        cases hfl : fill k [x.render] (t.map Json.render) with
        | nil => exact absurd hfl hfne
        | cons c cs => rfl
    · rw [if_neg hrot]
      have ihh := ih D (b ++ [x.render]) (by simp)
        (by simp only [List.length_append, List.length_cons, List.length_nil]; omega)
        (CandInj.mono (by simp only [List.length_cons]; omega) hinj)
      rw [ihh]
      have hfe : fill k b ((x :: t).map Json.render)
          = fill k (b ++ [x.render]) (t.map Json.render) := by
        rw [List.map_cons, fill, if_neg hrot]
      rw [hfe]

theorem chunksOf_length_le_aux (k : Nat) (hk : 1 ≤ k) :
    ∀ (n : Nat) (xs : List α), xs.length ≤ n → (chunksOf k xs).length ≤ xs.length := by
  intro n
  induction n with
  | zero =>
    intro xs hxs
    have : xs = [] := List.eq_nil_of_length_eq_zero (Nat.le_zero.mp hxs)
    subst this
    simp [chunksOf]
  | succ n ih =>
    intro xs hxs
    cases xs with
    | nil => simp [chunksOf]
    | cons x t =>
      rw [chunksOf_cons, List.length_cons, List.length_cons]
      have h1 : (t.drop (k - 1)).length ≤ t.length := by
        rw [List.length_drop]; omega
      have h2 := ih (t.drop (k - 1)) (by simp at hxs ⊢; omega)
      omega

theorem chunksOf_length_le (k : Nat) (hk : 1 ≤ k) (xs : List α) :
    (chunksOf k xs).length ≤ xs.length :=
  chunksOf_length_le_aux k hk xs.length xs (Nat.le_refl _)

/-- `fill` preserves the total number of items. -/
theorem fill_sum (k : Nat) :
    ∀ (rest b : List α), ((fill k b rest).map List.length).sum = b.length + rest.length := by
  intro rest
  induction rest with
  | nil => intro b; simp [fill]
  | cons x t ih =>
    intro b
    rw [fill]
    by_cases h : k ≤ b.length
    · rw [if_pos h]
      simp only [List.map_cons, List.sum_cons, ih [x], List.length_cons, List.length_nil]
      omega
    · rw [if_neg h, ih (b ++ [x])]
      simp
      omega

/-- Every chunk `fill` has rotated out is exactly full. -/
theorem fill_full (k : Nat) (hk : 1 ≤ k) :
    ∀ (rest b : List α), b.length ≤ k →
      ∀ c ∈ (fill k b rest).dropLast, c.length = k := by
  intro rest
  induction rest with
  | nil => intro b hbk c hc; simp [fill] at hc
  | cons x t ih =>
    intro b hbk c hc
    rw [fill] at hc
    by_cases h : k ≤ b.length
    · rw [if_pos h, List.dropLast_cons_of_ne_nil (fill_ne_nil k [x] t)] at hc
      rcases List.mem_cons.mp hc with rfl | hc2
      · omega
      · exact ih [x] (by simpa using hk) c hc2
    · rw [if_neg h] at hc
      exact ih (b ++ [x]) (by simp; omega) c hc

/-- `getTotalCount` at a mid-run state counts full shards times `k`
plus the active shard. -/
theorem getTotalCount_mid (cfg : Config) (k : Nat) (hmx : cfg.maxItems = k)
    (D : List (List String)) (b : List String) :
    ArrayStream.getTotalCount (midState cfg D b) = D.length * k + b.length := by
  unfold ArrayStream.getTotalCount midState
  simp only [List.length_map, List.length_range, hmx]
  by_cases hD : D.length = 0
  · rw [if_neg (by omega)]
    rw [hD]
    simp
  · rw [if_pos (by omega)]
    simp

/-- The full run: from a fresh lazy writer over an empty folder,
submitting the serialized items and closing produces exactly the
chunked shard files. -/
theorem run_spec (cfg : Config) (k : Nat) (hrun : RunCfg cfg k)
    (items : List Json) (hne : items ≠ [])
    (hinj : CandInj cfg (items.length + 2)) :
    ArrayStream.closeArrayStream (runItems (initState cfg []) (items.map Chunk.obj)) =
      endState cfg (chunksOf k (items.map Json.render)).dropLast
                   ((chunksOf k (items.map Json.render)).getLastD []) := by
  cases items with
  | nil => exact absurd rfl hne
  | cons x t =>
    rw [List.map_cons, runItems_cons, writeStep_first cfg k hrun x]
    rw [runItems_mid cfg k hrun t [] [x.render] (by simp) (by simpa using hrun.kpos)
        (CandInj.mono (by simp only [List.length_nil, List.length_cons]; omega) hinj)]
    have hfc : fill k [x.render] (t.map Json.render)
        = chunksOf k ((x :: t).map Json.render) := by
      rw [fill_eq_chunksOf k hrun.kpos (t.map Json.render) [x.render]
          (by simpa using hrun.kpos) (by simp)]
      rw [List.map_cons, List.singleton_append]
    rw [hfc, List.nil_append]
    have hlen : (chunksOf k ((x :: t).map Json.render)).length ≤ (x :: t).length := by
      have := chunksOf_length_le k hrun.kpos ((x :: t).map Json.render)
      simpa using this
    exact close_mid cfg _ _
      (CandInj.mono (by
        have hdl : (chunksOf k ((x :: t).map Json.render)).dropLast.length
            ≤ (chunksOf k ((x :: t).map Json.render)).length := by
          rw [List.length_dropLast]; omega
        simp only [List.length_cons] at hlen ⊢
        omega) hinj)

-- ======================================================================
-- READING SHARD CONTENTS BACK
-- ======================================================================

theorem chunksOf_ne_nil (k : Nat) (xs : List α) (h : xs ≠ []) :
    chunksOf k xs ≠ [] := by
  cases xs with
  | nil => exact absurd rfl h
  | cons x t => rw [chunksOf_cons]; simp

theorem dropLast_append_getLastD (l : List α) (h : l ≠ []) (d : α) :
    l.dropLast ++ [l.getLastD d] = l := by
  induction l with
  | nil => exact absurd rfl h
  | cons a t ih =>
    cases t with
    | nil => simp
    | cons b t2 =>
      rw [List.dropLast_cons_of_ne_nil (by simp), List.cons_append]
      rw [show (a :: b :: t2).getLastD d = (b :: t2).getLastD d from rfl]
      rw [ih (by simp)]

theorem shardFiles_lookup (cfg : Config) :
    ∀ (css : List (List String)) (off i : Nat), i < css.length →
      (∀ j1 j2, j1 < j2 → j2 < off + css.length → candidatePath cfg j1 ≠ candidatePath cfg j2) →
      fsLookup (shardFiles cfg off css) (candidatePath cfg (off + i))
        = some (shardClosed (css.getD i [])) := by
  intro css
  induction css with
  | nil => intro off i hi; simp at hi
  | cons c rest ih =>
    intro off i hi hinj
    cases i with
    | zero =>
      rw [Nat.add_zero, shardFiles]
      rw [show fsLookup ((candidatePath cfg off, shardClosed c) :: shardFiles cfg (off + 1) rest)
            (candidatePath cfg off)
          = if candidatePath cfg off = candidatePath cfg off then some (shardClosed c)
            else fsLookup (shardFiles cfg (off + 1) rest) (candidatePath cfg off) from rfl]
      rw [if_pos rfl]
      rfl
    | succ i2 =>
      rw [shardFiles]
      have hne : candidatePath cfg off ≠ candidatePath cfg (off + (i2 + 1)) :=
        hinj off (off + (i2 + 1)) (by omega) (by simp at hi; simp [List.length_cons]; omega)
      rw [show fsLookup ((candidatePath cfg off, shardClosed c) :: shardFiles cfg (off + 1) rest)
            (candidatePath cfg (off + (i2 + 1)))
          = if candidatePath cfg off = candidatePath cfg (off + (i2 + 1)) then some (shardClosed c)
            else fsLookup (shardFiles cfg (off + 1) rest) (candidatePath cfg (off + (i2 + 1))) from rfl]
      rw [if_neg hne]
      have := ih (off + 1) i2 (by simp at hi; omega)
        (fun j1 j2 h1 h2 => hinj j1 j2 h1 (by simp at h2 ⊢; omega))
      rw [show off + (i2 + 1) = off + 1 + i2 by omega]
      rw [this]
      rfl

theorem joinComma_data_length (js : List Json) (hne : js ≠ []) :
    js.length ≤ (joinComma (js.map Json.render)).data.length := by
  induction js with
  | nil => exact absurd rfl hne
  | cons j t ih =>
    rw [joinComma_data_cons]
    cases ht : t with
    | nil =>
      subst ht
      simp only [if_pos rfl, List.append_nil, List.length_cons, List.length_nil]
      have := Json.renderL_ne_nil j
      cases h : j.renderL with
      | nil => exact absurd h this
      | cons a t2 => simp
    | cons j2 t2 =>
      subst ht
      rw [if_neg (by simp)]
      have h1 := ih (by simp)
      have := Json.renderL_ne_nil j
      cases h : j.renderL with
      | nil => exact absurd h this
      | cons a t3 =>
        simp only [List.length_append, List.length_cons]
        simp at h1 ⊢
        omega

/-- Decoding is a left inverse of rendering a shard file, for
well-formed items. -/
theorem decodeShard_complete (js : List Json) (hwf : ∀ j ∈ js, j.wf) :
    decodeShard (shardClosed (js.map Json.render)) = some js := by
  cases hjs : js with
  | nil =>
    subst hjs
    rfl
  | cons j t =>
    subst hjs
    have hdata : (shardClosed ((j :: t).map Json.render)).data
        = '[' :: ((joinComma ((j :: t).map Json.render)).data ++ [']', '\n']) := by
      show (("[" ++ joinComma ((j :: t).map Json.render)) ++ "]\n").data = _
      rw [String.data_app, String.data_app]
      rfl
    unfold decodeShard
    rw [hdata]
    have hlen1 : 1 ≤ (joinComma ((j :: t).map Json.render)).data.length := by
      have := joinComma_data_length (j :: t) (by simp)
      simp at this ⊢
      omega
    rw [show (match '[' :: ((joinComma ((j :: t).map Json.render)).data ++ [']', '\n']) with
          | '[' :: cs => if cs = [']', '\n'] then some [] else parseElems cs.length cs
          | _ => none)
        = (if ((joinComma ((j :: t).map Json.render)).data ++ [']', '\n']) = [']', '\n']
           then some []
           else parseElems ((joinComma ((j :: t).map Json.render)).data ++ [']', '\n']).length
             ((joinComma ((j :: t).map Json.render)).data ++ [']', '\n'])) from rfl]
    rw [if_neg (by
      intro hcontra
      have hl := congrArg List.length hcontra
      simp only [List.length_append, List.length_cons, List.length_nil] at hl
      omega)]
    apply parseElems_complete (j :: t) (by simp) hwf
    have hjl := joinComma_data_length (j :: t) (by simp)
    simp only [List.length_append, List.length_cons, List.length_nil] at hjl ⊢
    omega

theorem sum_lengths_const (L : List (List α)) (k : Nat)
    (h : ∀ c ∈ L, c.length = k) : (L.map List.length).sum = L.length * k := by
  induction L with
  | nil => simp
  | cons c t ih =>
    simp only [List.map_cons, List.sum_cons, List.length_cons]
    rw [h c (List.mem_cons_self c t), ih (fun c2 hc2 => h c2 (List.mem_cons_of_mem c hc2))]
    ring

/-- The mid-run state of a full accepted run, before end-of-input. -/
theorem run_mid_spec (cfg : Config) (k : Nat) (hrun : RunCfg cfg k)
    (items : List Json) (hne : items ≠ [])
    (hinj : CandInj cfg (items.length + 2)) :
    runItems (initState cfg []) (items.map Chunk.obj) =
      midState cfg (chunksOf k (items.map Json.render)).dropLast
                   ((chunksOf k (items.map Json.render)).getLastD []) := by
  cases items with
  | nil => exact absurd rfl hne
  | cons x t =>
    rw [List.map_cons, runItems_cons, writeStep_first cfg k hrun x]
    rw [runItems_mid cfg k hrun t [] [x.render] (by simp) (by simpa using hrun.kpos)
        (CandInj.mono (by simp only [List.length_nil, List.length_cons]; omega) hinj)]
    have hfc : fill k [x.render] (t.map Json.render)
        = chunksOf k ((x :: t).map Json.render) := by
      rw [fill_eq_chunksOf k hrun.kpos (t.map Json.render) [x.render]
          (by simpa using hrun.kpos) (by simp)]
      rw [List.map_cons, List.singleton_append]
    rw [hfc, List.nil_append]

/-- After any number of accepted items, the lifetime total equals the
number of items submitted. -/
theorem run_total (cfg : Config) (k : Nat) (hrun : RunCfg cfg k)
    (items : List Json) (hinj : CandInj cfg (items.length + 2)) :
    ArrayStream.getTotalCount (runItems (initState cfg []) (items.map Chunk.obj))
      = items.length := by
  cases hi : items with
  | nil =>
    subst hi
    simp [runItems, initState, hrun.lzy, ArrayStream.incrementKey, ArrayStream.getTotalCount]
  | cons x t =>
    subst hi
    rw [run_mid_spec cfg k hrun (x :: t) (by simp) hinj]
    rw [getTotalCount_mid cfg k hrun.mx]
    -- the chunk decomposition of the run
    have hfc : chunksOf k ((x :: t).map Json.render)
        = fill k [x.render] (t.map Json.render) := by
      rw [fill_eq_chunksOf k hrun.kpos (t.map Json.render) [x.render]
          (by simpa using hrun.kpos) (by simp)]
      rw [List.map_cons, List.singleton_append]
    set F := fill k [x.render] (t.map Json.render) with hF
    have hfne : F ≠ [] := fill_ne_nil k [x.render] (t.map Json.render)
    have hsum : (F.map List.length).sum = 1 + t.length := by
      rw [hF, fill_sum]
      simp
    have hfull : ∀ c ∈ F.dropLast, c.length = k := by
      rw [hF]
      exact fill_full k hrun.kpos (t.map Json.render) [x.render] (by simpa using hrun.kpos)
    have hsplit : (F.map List.length).sum
        = (F.dropLast.map List.length).sum + (F.getLastD []).length := by
      conv_lhs => rw [← dropLast_append_getLastD F hfne []]
      rw [List.map_append, List.sum_append]
      simp
    rw [hfc, hsum] at *
    rw [sum_lengths_const F.dropLast k hfull] at hsplit
    rw [hfc]
    simp only [List.length_cons]
    omega

/-- `getTotalCount` literally computes completed shards times the
shard capacity plus the current count, in every state. -/
theorem getTotalCount_formula (st : ArrayState) :
    ArrayStream.getTotalCount st
      = (st.files.length - 1) * st.config.maxItems + st.count := by
  unfold ArrayStream.getTotalCount
  split
  · rfl
  · next h =>
    have h0 : st.files.length - 1 = 0 := by omega
    rw [h0, Nat.zero_mul, Nat.zero_add]

theorem getD_map_list (f : α → β) (L : List (List α)) (i : Nat) (hi : i < L.length) :
    (L.map (List.map f)).getD i [] = (L.getD i []).map f := by
  rw [List.getD_eq_getElem _ _ (by simpa using hi), List.getD_eq_getElem _ _ hi,
      List.getElem_map]

/-- The chunk decomposition accounts for every submitted item. -/
theorem chunks_total (k : Nat) (hk : 1 ≤ k) (items : List Json) (hne : items ≠ []) :
    ((chunksOf k (items.map Json.render)).dropLast).length * k
      + ((chunksOf k (items.map Json.render)).getLastD []).length = items.length := by
  cases items with
  | nil => exact absurd rfl hne
  | cons x t =>
    have hfc : chunksOf k ((x :: t).map Json.render)
        = fill k [x.render] (t.map Json.render) := by
      rw [fill_eq_chunksOf k hk (t.map Json.render) [x.render] (by simpa using hk) (by simp)]
      rw [List.map_cons, List.singleton_append]
    set F := fill k [x.render] (t.map Json.render) with hF
    have hfne : F ≠ [] := fill_ne_nil k [x.render] (t.map Json.render)
    have hsum : (F.map List.length).sum = 1 + t.length := by
      rw [hF, fill_sum]
      simp
    have hfull : ∀ c ∈ F.dropLast, c.length = k := by
      rw [hF]
      exact fill_full k hk (t.map Json.render) [x.render] (by simpa using hk)
    have hsplit : (F.map List.length).sum
        = (F.dropLast.map List.length).sum + (F.getLastD []).length := by
      conv_lhs => rw [← dropLast_append_getLastD F hfne []]
      rw [List.map_append, List.sum_append]
      simp
    rw [sum_lengths_const F.dropLast k hfull] at hsplit
    rw [hfc]
    simp only [List.length_cons]
    omega

/-- `getTotalCount` at the finalized state. -/
theorem getTotalCount_end (cfg : Config) (k : Nat) (hmx : cfg.maxItems = k)
    (D : List (List String)) (b : List String) :
    ArrayStream.getTotalCount (endState cfg D b) = D.length * k + b.length := by
  unfold ArrayStream.getTotalCount endState
  simp only [List.length_map, List.length_range, hmx]
  by_cases hD : D.length = 0
  · rw [if_neg (by omega)]
    rw [hD]
    simp
  · rw [if_pos (by omega)]
    simp

-- ======================================================================
-- CLAIM C1
-- ======================================================================

/-- C1 (amended): for every sequence of `N` items, all accepted
without per-item error, submitted to a fresh lazily-opened local
create-mode writer over an empty folder with `maxItemsPerShard = k`
(`k ≥ 1`) and pairwise-distinct candidate shard paths, after
end-of-input the writer has produced exactly `⌈N/k⌉` shard files, and
each produced shard file holds at most `k` items and is a
syntactically valid JSON array.  The amendment restricts the claim to
this scenario: outside it the code falsifies the claim — a remote
shard object is missing the opening bracket, and a non-lazy writer
opens its first shard eagerly, so zero items still leave one file
(see the counterexample). -/
theorem c1_shards_ceil_valid (cfg : Config) (k : Nat) (hrun : RunCfg cfg k)
    (items : List Json) (hwf : ∀ j ∈ items, j.wf)
    (hinj : CandInj cfg (items.length + 2)) :
    (ArrayStream.closeArrayStream (runItems (initState cfg []) (items.map Chunk.obj))).files.length
        = (items.length + k - 1) / k ∧
    ∀ p ∈ (ArrayStream.closeArrayStream (runItems (initState cfg []) (items.map Chunk.obj))).files,
      ∃ js : List Json,
        fsLookup (ArrayStream.closeArrayStream (runItems (initState cfg []) (items.map Chunk.obj))).fs p
            = some (shardClosed (js.map Json.render)) ∧
        js.length ≤ k ∧ IsJsonArrayFile (shardClosed (js.map Json.render)) := by
  cases hitems : items with
  | nil =>
    subst hitems
    constructor
    · show (ArrayStream.closeArrayStream (initState cfg [])).files.length = (0 + k - 1) / k
      rw [Nat.div_eq_of_lt (by have := hrun.kpos; omega)]
      simp [runItems, ArrayStream.closeArrayStream, ArrayStream.flushOutstream,
        ArrayStream.resetOutstream, ArrayStream.outWrite, initState,
        ArrayStream.incrementKey, hrun.lzy]
    · intro p hp
      simp [runItems, ArrayStream.closeArrayStream, ArrayStream.flushOutstream,
        ArrayStream.resetOutstream, ArrayStream.outWrite, initState,
        ArrayStream.incrementKey, hrun.lzy] at hp
  | cons x t =>
    subst hitems
    rw [run_spec cfg k hrun (x :: t) (by simp) hinj]
    set CS := chunksOf k ((x :: t).map Json.render) with hCS
    have hCSne : CS ≠ [] := chunksOf_ne_nil k _ (by simp)
    have hCSpos : 0 < CS.length := List.length_pos.mpr hCSne
    have hlen1 : CS.dropLast.length + 1 = CS.length := by
      rw [List.length_dropLast]; omega
    have hCSle : CS.length ≤ (x :: t).length := by
      have := chunksOf_length_le k hrun.kpos ((x :: t).map Json.render)
      simpa using this
    have hfiles : (endState cfg CS.dropLast (CS.getLastD [])).files
        = (List.range CS.length).map (candidatePath cfg) := by
      show (List.range (CS.dropLast.length + 1)).map (candidatePath cfg) = _
      rw [hlen1]
    have hfs : (endState cfg CS.dropLast (CS.getLastD [])).fs = shardFiles cfg 0 CS := by
      show shardFiles cfg 0 (CS.dropLast ++ [CS.getLastD []]) = _
      rw [dropLast_append_getLastD CS hCSne]
    constructor
    · rw [hfiles, List.length_map, List.length_range, hCS,
          chunksOf_length k hrun.kpos, List.length_map]
    · intro p hp
      rw [hfiles] at hp
      rcases List.mem_map.mp hp with ⟨i, hi, rfl⟩
      have hilt : i < CS.length := List.mem_range.mp hi
      refine ⟨(chunksOf k (x :: t)).getD i [], ?_, ?_, ?_⟩
      · rw [hfs]
        have hl := shardFiles_lookup cfg CS 0 i hilt
          (fun j1 j2 h1 h2 => hinj j2 (by simp at h2; omega) j1 h1)
        rw [Nat.zero_add] at hl
        rw [hl]
        congr 1
        rw [hCS, chunksOf_map k Json.render (x :: t)]
        rw [getD_map_list Json.render (chunksOf k (x :: t)) i
          (by rw [hCS, chunksOf_map] at hilt; simpa using hilt)]
      · have hilt2 : i < (chunksOf k (x :: t)).length := by
          rw [hCS, chunksOf_map] at hilt; simpa using hilt
        rw [List.getD_eq_getElem _ _ hilt2]
        exact chunksOf_mem_length_le k hrun.kpos (x :: t) _ (List.getElem_mem _)
      · exact ⟨_, rfl⟩

def cfgW : Config :=
  { folder := "out", keyPattern := "shard_$$", fileType := "json", bucket := none,
    mkdirRecursive := false, maxItems := 2, itemSchema := none,
    localMode := true, overwrite := false, lazy := true, append := false,
    verbose := false, debug := false }

theorem cfgW_run : RunCfg cfgW 2 := ⟨rfl, rfl, rfl, rfl, rfl, rfl, by omega⟩

def itemsW : List Json := [Json.str "a", Json.str "b", Json.str "c"]

/-- Witness for C1 at `maxItemsPerShard = 2` and items a, b, c. -/
theorem c1_witness :
    (ArrayStream.closeArrayStream (runItems (initState cfgW []) (itemsW.map Chunk.obj))).files.length
        = (itemsW.length + 2 - 1) / 2 ∧
    ∀ p ∈ (ArrayStream.closeArrayStream (runItems (initState cfgW []) (itemsW.map Chunk.obj))).files,
      ∃ js : List Json,
        fsLookup (ArrayStream.closeArrayStream (runItems (initState cfgW []) (itemsW.map Chunk.obj))).fs p
            = some (shardClosed (js.map Json.render)) ∧
        js.length ≤ 2 ∧ IsJsonArrayFile (shardClosed (js.map Json.render)) :=
  c1_shards_ceil_valid cfgW 2 cfgW_run itemsW (by decide) (by decide)

-- ======================================================================
-- CLAIM C2
-- ======================================================================

/-- C2 (amended): in the local lazy create-mode run scenario of C1,
the finalized content of shard `i` is `[` followed by the
comma-joined serialized items assigned to shard `i` — the `i`-th
consecutive block of `k` submitted items, in submission order —
followed by `]\n`, and JSON-decoding that content reproduces exactly
that sub-sequence of the submitted items.  The amendment restricts the
claim to the local backend: a remote shard object lacks the opening
bracket, and across a rotation the separator is never reset, so the
remote content is not of the claimed format (see the
counterexample). -/
theorem c2_shard_content_roundtrip (cfg : Config) (k : Nat) (hrun : RunCfg cfg k)
    (items : List Json) (hwf : ∀ j ∈ items, j.wf)
    (hinj : CandInj cfg (items.length + 2)) :
    ∀ i, i < (ArrayStream.closeArrayStream (runItems (initState cfg []) (items.map Chunk.obj))).files.length →
      fsLookup (ArrayStream.closeArrayStream (runItems (initState cfg []) (items.map Chunk.obj))).fs
          (candidatePath cfg i)
        = some (shardClosed (((items.drop (i * k)).take k).map Json.render)) ∧
      decodeShard (shardClosed (((items.drop (i * k)).take k).map Json.render))
        = some ((items.drop (i * k)).take k) := by
  cases hitems : items with
  | nil =>
    subst hitems
    intro i hi
    simp [runItems, ArrayStream.closeArrayStream, ArrayStream.flushOutstream,
      ArrayStream.resetOutstream, ArrayStream.outWrite, initState,
      ArrayStream.incrementKey, hrun.lzy] at hi
  | cons x t =>
    subst hitems
    rw [run_spec cfg k hrun (x :: t) (by simp) hinj]
    set CS := chunksOf k ((x :: t).map Json.render) with hCS
    have hCSne : CS ≠ [] := chunksOf_ne_nil k _ (by simp)
    have hCSpos : 0 < CS.length := List.length_pos.mpr hCSne
    have hlen1 : CS.dropLast.length + 1 = CS.length := by
      rw [List.length_dropLast]; omega
    have hCSle : CS.length ≤ (x :: t).length := by
      have := chunksOf_length_le k hrun.kpos ((x :: t).map Json.render)
      simpa using this
    intro i hi
    have hilt : i < CS.length := by
      have : (endState cfg CS.dropLast (CS.getLastD [])).files.length = CS.length := by
        show ((List.range (CS.dropLast.length + 1)).map (candidatePath cfg)).length = _
        rw [List.length_map, List.length_range, hlen1]
      omega
    have hilt2 : i < (chunksOf k (x :: t)).length := by
      rw [hCS, chunksOf_map] at hilt
      simpa using hilt
    have hslice : (chunksOf k (x :: t)).getD i [] = ((x :: t).drop (i * k)).take k := by
      rw [List.getD_eq_getElem _ _ hilt2, ← chunksOf_getD k hrun.kpos (x :: t) i hilt2,
          List.getD_eq_getElem _ _ hilt2]
    constructor
    · have hfs : (endState cfg CS.dropLast (CS.getLastD [])).fs = shardFiles cfg 0 CS := by
        show shardFiles cfg 0 (CS.dropLast ++ [CS.getLastD []]) = _
        rw [dropLast_append_getLastD CS hCSne]
      rw [hfs]
      have hl := shardFiles_lookup cfg CS 0 i hilt
        (fun j1 j2 h1 h2 => hinj j2 (by simp at h2 hCSle ⊢; omega) j1 h1)
      rw [Nat.zero_add] at hl
      rw [hl]
      congr 1
      rw [hCS, chunksOf_map k Json.render (x :: t)]
      rw [getD_map_list Json.render (chunksOf k (x :: t)) i hilt2, hslice]
    · apply decodeShard_complete
      intro j hj
      exact hwf j (List.drop_subset _ _ (List.take_subset _ _ hj))

/-- Witness for C2: shard 0 of the a, b, c run holds a and b and
decodes back to them. -/
theorem c2_witness :
    0 < (ArrayStream.closeArrayStream (runItems (initState cfgW []) (itemsW.map Chunk.obj))).files.length ∧
    (fsLookup (ArrayStream.closeArrayStream (runItems (initState cfgW []) (itemsW.map Chunk.obj))).fs
        (candidatePath cfgW 0)
      = some (shardClosed (((itemsW.drop (0 * 2)).take 2).map Json.render)) ∧
    decodeShard (shardClosed (((itemsW.drop (0 * 2)).take 2).map Json.render))
      = some ((itemsW.drop (0 * 2)).take 2)) :=
  ⟨by decide,
   c2_shard_content_roundtrip cfgW 2 cfgW_run itemsW (by decide) (by decide) 0 (by decide)⟩

-- ======================================================================
-- CLAIM C3
-- ======================================================================

/-- C3: in the run scenario, after submitting any prefix of `n` items
`totalItemsWritten()` returns `n`; after all `N` items and
end-of-input it returns `N` regardless of how many shards were
produced; and in every state it is computed as
`(completedShards × maxItemsPerShard) + itemsInShard` with
`completedShards = files.length - 1`. -/
theorem c3_total_count (cfg : Config) (k : Nat) (hrun : RunCfg cfg k)
    (items : List Json) (hinj : CandInj cfg (items.length + 2)) :
    (∀ n, n ≤ items.length →
        ArrayStream.getTotalCount (runItems (initState cfg []) ((items.take n).map Chunk.obj)) = n) ∧
    ArrayStream.getTotalCount
        (ArrayStream.closeArrayStream (runItems (initState cfg []) (items.map Chunk.obj)))
      = items.length ∧
    ∀ st : ArrayState, ArrayStream.getTotalCount st
      = (st.files.length - 1) * st.config.maxItems + st.count := by
  refine ⟨?_, ?_, fun st => getTotalCount_formula st⟩
  · intro n hn
    have hlen : (items.take n).length = n := by
      rw [List.length_take]; omega
    have := run_total cfg k hrun (items.take n)
      (CandInj.mono (by rw [hlen]; omega) hinj)
    rw [hlen] at this
    exact this
  · cases hitems : items with
    | nil =>
      subst hitems
      simp [runItems, ArrayStream.closeArrayStream, ArrayStream.flushOutstream,
        ArrayStream.resetOutstream, ArrayStream.outWrite, initState,
        ArrayStream.incrementKey, hrun.lzy, ArrayStream.getTotalCount]
    | cons x t =>
      subst hitems
      rw [run_spec cfg k hrun (x :: t) (by simp) hinj]
      rw [getTotalCount_end cfg k hrun.mx]
      exact chunks_total k hrun.kpos (x :: t) (by simp)

/-- Witness for C3 at the a, b, c run. -/
theorem c3_witness :
    (∀ n, n ≤ itemsW.length →
        ArrayStream.getTotalCount (runItems (initState cfgW []) ((itemsW.take n).map Chunk.obj)) = n) ∧
    ArrayStream.getTotalCount
        (ArrayStream.closeArrayStream (runItems (initState cfgW []) (itemsW.map Chunk.obj)))
      = itemsW.length ∧
    ∀ st : ArrayState, ArrayStream.getTotalCount st
      = (st.files.length - 1) * st.config.maxItems + st.count :=
  c3_total_count cfgW 2 cfgW_run itemsW (by decide)

-- ======================================================================
-- PRESERVATION LEMMAS (any configuration, any operation)
-- ======================================================================

theorem findFreeKey_pres : ∀ (fuel : Nat) (st : ArrayState),
    (ArrayStream.findFreeKey fuel st).count = st.count ∧
    (ArrayStream.findFreeKey fuel st).config = st.config := by
  intro fuel
  induction fuel with
  | zero => intro st; exact ⟨rfl, rfl⟩
  | succ n ih =>
    intro st
    rw [findFreeKey_succ]
    split
    · exact ih (ArrayStream.incrementKey st)
    · exact ⟨rfl, rfl⟩

theorem openOutstream_pres (st : ArrayState) :
    (ArrayStream.openOutstream st).count = st.count ∧
    (ArrayStream.openOutstream st).config = st.config := by
  unfold ArrayStream.openOutstream
  have hf := findFreeKey_pres (st.fs.length + 1) st
  set stA := if !st.config.append && !st.config.overwrite
      then ArrayStream.findFreeKey (st.fs.length + 1) st else st with hA
  have hAc : stA.count = st.count ∧ stA.config = st.config := by
    rw [hA]; split
    · exact hf
    · exact ⟨rfl, rfl⟩
  simp only []
  split
  · split
    · split
      · exact hAc
      · exact hAc
    · exact hAc
  · exact hAc

theorem outWrite_pres (st : ArrayState) (s : String) :
    (ArrayStream.outWrite st s).count = st.count ∧
    (ArrayStream.outWrite st s).config = st.config := by
  unfold ArrayStream.outWrite
  split
  · exact ⟨rfl, rfl⟩
  · exact ⟨rfl, rfl⟩

theorem resetOutstream_false_pres (st : ArrayState) :
    (ArrayStream.resetOutstream st false).count = 0 ∧
    (ArrayStream.resetOutstream st false).config = st.config := by
  unfold ArrayStream.resetOutstream
  set st1 := (match st.outstream with
              | some _ => ArrayStream.outWrite st "]\n"
              | none => st) with h1
  have h1c : st1.config = st.config := by
    rw [h1]; split
    · exact (outWrite_pres st _).2
    · rfl
  simp only [Bool.false_eq_true, if_false]
  have ho := openOutstream_pres (ArrayStream.incrementKey (ArrayStream.resetCount st1))
  exact ⟨ho.1, ho.2.trans h1c⟩

theorem resetOutstream_true_pres (st : ArrayState) :
    (ArrayStream.resetOutstream st true).count = st.count ∧
    (ArrayStream.resetOutstream st true).config = st.config := by
  unfold ArrayStream.resetOutstream
  set st1 := (match st.outstream with
              | some _ => ArrayStream.outWrite st "]\n"
              | none => st) with h1
  have h1c : st1.count = st.count ∧ st1.config = st.config := by
    rw [h1]; split
    · exact outWrite_pres st _
    · exact ⟨rfl, rfl⟩
  simp only [if_true]
  exact h1c

theorem closeArrayStream_pres (st : ArrayState) :
    (ArrayStream.closeArrayStream st).count = st.count ∧
    (ArrayStream.closeArrayStream st).config = st.config := by
  unfold ArrayStream.closeArrayStream ArrayStream.flushOutstream
  by_cases hd : st.destroyed = true
  · rw [if_pos hd]
    exact ⟨rfl, rfl⟩
  · rw [if_neg hd, if_neg hd]
    simp only [reduceIte]
    exact ⟨(resetOutstream_true_pres _).1, (resetOutstream_true_pres _).2⟩

theorem writeCont_count (st : ArrayState) (chunk : Chunk) (pre : List CbRes)
    (hk : 1 ≤ st.config.maxItems) (hc : st.count ≤ st.config.maxItems) :
    ((ArrayStream.writeCont st chunk pre).1).count ≤ st.config.maxItems ∧
    ((ArrayStream.writeCont st chunk pre).1).config = st.config := by
  unfold ArrayStream.writeCont
  split
  · exact ⟨hc, rfl⟩
  · by_cases hfull : st.count ≥ st.config.maxItems
    · rw [if_pos hfull]
      have h1 := resetOutstream_false_pres st
      have h2 := outWrite_pres (ArrayStream.resetOutstream st false)
        ((ArrayStream.resetOutstream st false).sep ++ chunkToString chunk)
      constructor
      · show (ArrayStream.outWrite (ArrayStream.resetOutstream st false) _).count + 1
            ≤ st.config.maxItems
        rw [h2.1, h1.1]
        omega
      · show (ArrayStream.outWrite (ArrayStream.resetOutstream st false) _).config
            = st.config
        rw [h2.2, h1.2]
    · rw [if_neg hfull]
      have h2 := outWrite_pres st (st.sep ++ chunkToString chunk)
      constructor
      · show (ArrayStream.outWrite st _).count + 1 ≤ st.config.maxItems
        rw [h2.1]
        omega
      · exact h2.2

theorem writeStep_count (st : ArrayState) (chunk : Chunk)
    (hk : 1 ≤ st.config.maxItems) (hc : st.count ≤ st.config.maxItems) :
    ((ArrayStream.writeStep st chunk).1).count ≤ st.config.maxItems ∧
    ((ArrayStream.writeStep st chunk).1).config = st.config := by
  unfold ArrayStream.writeStep
  set st1 := if (st.config.lazy && st.outstream.isNone) = true
      then ArrayStream.openOutstream st else st with h1
  have h1c : st1.count = st.count ∧ st1.config = st.config := by
    rw [h1]; split
    · exact openOutstream_pres st
    · exact ⟨rfl, rfl⟩
  have hk1 : 1 ≤ st1.config.maxItems := by rw [h1c.2]; exact hk
  have hc1 : st1.count ≤ st1.config.maxItems := by rw [h1c.1, h1c.2]; exact hc
  simp only []
  split
  · split
    · exact ⟨h1c.2 ▸ hc1, h1c.2⟩
    · exact ⟨h1c.2 ▸ (writeCont_count st1 chunk _ hk1 hc1).1,
        (writeCont_count st1 chunk _ hk1 hc1).2.trans h1c.2⟩
  · exact ⟨h1c.2 ▸ (writeCont_count st1 chunk _ hk1 hc1).1,
      (writeCont_count st1 chunk _ hk1 hc1).2.trans h1c.2⟩

/-- A configuration accepted by the constructor has a positive shard
capacity (the joi schema requires `maxItems ≥ 1`), and validation
never changes `maxItems`. -/
theorem validateConfig_ok_maxOne (cfg c : Config) (h : validateConfig cfg = .ok c) :
    1 ≤ c.maxItems := by
  unfold validateConfig at h
  by_cases hjoi : joiOk cfg = true
  · rw [if_neg (by simp [hjoi])] at h
    by_cases hao : (cfg.append && cfg.overwrite) = true
    · rw [if_pos hao] at h
      exact absurd h (by simp)
    · rw [if_neg hao] at h
      simp only [] at h
      have hmax : 1 ≤ cfg.maxItems := by
        unfold joiOk at hjoi
        simp only [Bool.and_eq_true, decide_eq_true_eq] at hjoi
        exact hjoi.2
      split at h
      · split at h
        · exact absurd h (by simp)
        · simp only [Except.ok.injEq] at h
          rw [← h]
          exact hmax
      · split at h
        · exact absurd h (by simp)
        · simp only [Except.ok.injEq] at h
          rw [← h]
          exact hmax
  · rw [if_pos (by simp [Bool.not_eq_true] at hjoi; simp [hjoi])] at h
    exact absurd h (by simp)

theorem initState_pres (cfg : Config) (fs0 : List (String × String)) :
    (initState cfg fs0).count = 0 ∧ (initState cfg fs0).config = cfg := by
  unfold initState
  split
  · exact ⟨rfl, rfl⟩
  · exact ⟨(openOutstream_pres _).1, (openOutstream_pres _).2⟩

/-- The invariant of C7, preserved by every operation. -/
theorem runOps_count_le :
    ∀ (ops : List Op) (st : ArrayState),
      1 ≤ st.config.maxItems → st.count ≤ st.config.maxItems →
      (runOps st ops).count ≤ (runOps st ops).config.maxItems ∧
      (runOps st ops).config = st.config := by
  intro ops
  induction ops with
  | nil => intro st h1 h2; exact ⟨h2, rfl⟩
  | cons op t ih =>
    intro st h1 h2
    show (runOps (applyOp st op) t).count ≤ _ ∧ _
    cases op with
    | write c =>
      have hw := writeStep_count st c h1 h2
      have := ih ((ArrayStream.writeStep st c).1)
        (by rw [hw.2]; exact h1) (by rw [hw.2]; exact hw.1)
      exact ⟨this.1, this.2.trans hw.2⟩
    | close =>
      have hcl := closeArrayStream_pres st
      have := ih (ArrayStream.closeArrayStream st)
        (by rw [hcl.2]; exact h1) (by rw [hcl.1, hcl.2]; exact h2)
      exact ⟨this.1, this.2.trans hcl.2⟩

-- ======================================================================
-- CLAIM C7
-- ======================================================================

/-- C7: in every state reachable by any sequence of writer operations
from a successfully constructed writer,
`0 ≤ itemsInShard ≤ maxItemsPerShard` holds — a write that would
exceed the limit first rotates, resetting the count before the item
is counted against the new shard. -/
theorem c7_items_in_shard_bounded (cfg : Config) (fs0 : List (String × String))
    (st0 : ArrayState) (hmk : mkArrayStream cfg fs0 = .ok st0) (ops : List Op) :
    0 ≤ (runOps st0 ops).count ∧
    (runOps st0 ops).count ≤ (runOps st0 ops).config.maxItems := by
  have hv : ∃ c, validateConfig cfg = .ok c ∧ st0 = initState c fs0 := by
    unfold mkArrayStream at hmk
    cases hval : validateConfig cfg with
    | error e => rw [hval] at hmk; exact absurd hmk (by simp [Except.map])
    | ok c =>
      rw [hval] at hmk
      simp only [Except.map, Except.ok.injEq] at hmk
      exact ⟨c, rfl, hmk.symm⟩
  rcases hv with ⟨c, hval, rfl⟩
  have hmax := validateConfig_ok_maxOne cfg c hval
  have hini := initState_pres c fs0
  refine ⟨Nat.zero_le _, ?_⟩
  exact (runOps_count_le ops (initState c fs0)
    (by rw [hini.2]; exact hmax) (by rw [hini.1]; exact Nat.zero_le _)).1

/-- Witness for C7: a write, a close, and a post-close write on the
concrete writer. -/
theorem c7_witness :
    0 ≤ (runOps (initState cfgW []) [Op.write (Chunk.obj (Json.str "a")),
          Op.write (Chunk.obj (Json.str "b")), Op.write (Chunk.obj (Json.str "c")),
          Op.close, Op.write (Chunk.obj (Json.str "d"))]).count ∧
    (runOps (initState cfgW []) [Op.write (Chunk.obj (Json.str "a")),
          Op.write (Chunk.obj (Json.str "b")), Op.write (Chunk.obj (Json.str "c")),
          Op.close, Op.write (Chunk.obj (Json.str "d"))]).count
      ≤ (runOps (initState cfgW []) [Op.write (Chunk.obj (Json.str "a")),
          Op.write (Chunk.obj (Json.str "b")), Op.write (Chunk.obj (Json.str "c")),
          Op.close, Op.write (Chunk.obj (Json.str "d"))]).config.maxItems :=
  c7_items_in_shard_bounded cfgW [] (initState cfgW []) rfl
    [Op.write (Chunk.obj (Json.str "a")), Op.write (Chunk.obj (Json.str "b")),
     Op.write (Chunk.obj (Json.str "c")), Op.close, Op.write (Chunk.obj (Json.str "d"))]

-- ======================================================================
-- CLAIM C10
-- ======================================================================

/-- C10: when a validation schema is configured, a Buffer item is
converted to its string decoding before the schema is applied, so for
every Buffer the validation outcome equals that of its string
decoding; validation never inspects anything else of the Buffer. -/
theorem c10_buffer_validated_as_string (f : Chunk → Bool) (s : String) :
    ArrayStream.validateChunk f (Chunk.buf s) = ArrayStream.validateChunk f (Chunk.str s) := rfl

-- ======================================================================
-- CLAIM C9
-- ======================================================================

/-- C9: constructing a writer whose configuration sets both `append`
and `overwrite` raises the ConfigError stating they cannot both be
true, for every other schema-valid configuration value, and the error
is raised before any sink is opened: construction fails identically
for every state of the store, producing no writer state. -/
theorem c9_append_overwrite_error (cfg : Config)
    (hjoi : joiOk cfg = true) (ha : cfg.append = true) (ho : cfg.overwrite = true) :
    ∀ fs0 : List (String × String),
      mkArrayStream cfg fs0
        = .error "ArrayStream: config.append and config.overwrite cannot both be true" := by
  intro fs0
  unfold mkArrayStream validateConfig
  rw [if_neg (by simp [hjoi])]
  rw [if_pos (by rw [ha, ho]; rfl)]
  rfl

def cfgBad : Config :=
  { cfgW with append := true, overwrite := true }

/-- Witness for C9: both flags set on an otherwise valid config. -/
theorem c9_witness :
    mkArrayStream cfgBad []
      = .error "ArrayStream: config.append and config.overwrite cannot both be true" :=
  c9_append_overwrite_error cfgBad (by decide) rfl rfl []

-- ======================================================================
-- CLAIM C6 (code bug): the destroyed guard of `_write` does not return
-- ======================================================================

/-- C6: the spec says a write after `Closed` is a no-op that resolves
immediately.  The source's guard `if (this.destroyed) cb();` lacks a
`return`, so after calling the completion callback immediately the
method keeps executing: on this concrete destroyed writer the next
write reopens a new shard file, writes the item, increments the
count, and invokes the completion callback a second time. -/
theorem c6_destroyed_write_mutates :
    (ArrayStream.closeArrayStream (runItems (initState cfgW [])
        [Chunk.obj (Json.str "a")])).destroyed = true ∧
    (ArrayStream.closeArrayStream (runItems (initState cfgW [])
        [Chunk.obj (Json.str "a")])).files.length = 1 ∧
    (ArrayStream.writeStep (ArrayStream.closeArrayStream (runItems (initState cfgW [])
        [Chunk.obj (Json.str "a")])) (Chunk.obj (Json.str "b"))).2
      = [CbRes.ok, CbRes.ok] ∧
    (ArrayStream.writeStep (ArrayStream.closeArrayStream (runItems (initState cfgW [])
        [Chunk.obj (Json.str "a")])) (Chunk.obj (Json.str "b"))).1.files.length = 2 ∧
    (ArrayStream.writeStep (ArrayStream.closeArrayStream (runItems (initState cfgW [])
        [Chunk.obj (Json.str "a")])) (Chunk.obj (Json.str "b"))).1.count
      = (ArrayStream.closeArrayStream (runItems (initState cfgW [])
        [Chunk.obj (Json.str "a")])).count + 1 ∧
    fsLookup (ArrayStream.writeStep (ArrayStream.closeArrayStream (runItems (initState cfgW [])
        [Chunk.obj (Json.str "a")])) (Chunk.obj (Json.str "b"))).1.fs
        (candidatePath cfgW 1)
      = some "[\"b\"" := by
  refine ⟨rfl, rfl, ?_, rfl, rfl, ?_⟩ <;> decide

-- ======================================================================
-- CLAIM C5
-- ======================================================================

/-- C5 (amended): once the sink is open, a validation failure on item
`k` is reported only through that item's own completion callback, the
writer is not destroyed, and the entire writer state — `shardIndex`,
`itemsInShard`, the separator, the files and the store — is exactly
unchanged, so every later item is processed as if item `k` had never
been submitted.  (If item `k` is the very first item under lazy open,
the open that its arrival triggers may advance the key and set the
separator before validation runs; the validation failure itself
mutates nothing.) -/
theorem c5_validation_failure_no_mutation (st : ArrayState) (f : Chunk → Bool)
    (chunk : Chunk) (p e : String)
    (hschema : st.config.itemSchema = some f)
    (hfail : ArrayStream.validateChunk f chunk = some e)
    (hout : st.outstream = some p) (hdest : st.destroyed = false) :
    ArrayStream.writeStep st chunk = (st, [CbRes.error e]) ∧
    ∀ later : List Chunk,
      runItems (ArrayStream.writeStep st chunk).1 later = runItems st later := by
  have hmain : ArrayStream.writeStep st chunk = (st, [CbRes.error e]) := by
    unfold ArrayStream.writeStep
    rw [hdest, hout]
    simp only [Option.isNone_some, Bool.and_false, Bool.false_eq_true, if_false,
      hschema, hfail, List.nil_append]
  exact ⟨hmain, fun later => by rw [hmain]⟩

def fC5 : Chunk → Bool :=
  fun c => match c with
  | Chunk.obj (Json.str s) => s == "a"
  | _ => false

def cfgC5 : Config := { cfgW with itemSchema := some fC5 }

/-- Witness for C5: after one accepted item the sink is open; a
rejected item leaves the writer untouched. -/
theorem c5_witness :
    ArrayStream.writeStep
        ((ArrayStream.writeStep (initState cfgC5 []) (Chunk.obj (Json.str "a"))).1)
        (Chunk.obj (Json.str "z"))
      = ((ArrayStream.writeStep (initState cfgC5 []) (Chunk.obj (Json.str "a"))).1,
         [CbRes.error "ItemValidationError"]) ∧
    ∀ later : List Chunk,
      runItems (ArrayStream.writeStep
          ((ArrayStream.writeStep (initState cfgC5 []) (Chunk.obj (Json.str "a"))).1)
          (Chunk.obj (Json.str "z"))).1 later
        = runItems ((ArrayStream.writeStep (initState cfgC5 []) (Chunk.obj (Json.str "a"))).1) later :=
  c5_validation_failure_no_mutation
    ((ArrayStream.writeStep (initState cfgC5 []) (Chunk.obj (Json.str "a"))).1)
    fC5 (Chunk.obj (Json.str "z")) (candidatePath cfgC5 0) "ItemValidationError"
    rfl rfl rfl rfl

def cfgC5L : Config := { cfgW with append := true, itemSchema := some (fun _ => false) }

def fsC5 : List (String × String) :=
  [(candidatePath cfgC5L 0, shardClosed [Json.render (Json.str "p")])]

/-- Counterexample to C5 as stated: under lazy open in append mode,
the very first item triggers the sink open before validation, and the
open sets the separator from the existing file's trailing bytes; the
rejected item's `_write` therefore does change the separator state
(from the initial empty separator to a comma). -/
theorem c5_counterexample :
    (initState cfgC5L fsC5).sep = "" ∧
    (ArrayStream.writeStep (initState cfgC5L fsC5) (Chunk.obj (Json.str "z"))).2
      = [CbRes.error "ItemValidationError"] ∧
    (ArrayStream.writeStep (initState cfgC5L fsC5) (Chunk.obj (Json.str "z"))).1.sep = "," := by
  refine ⟨rfl, ?_, ?_⟩ <;> decide

-- ======================================================================
-- CLAIM C8
-- ======================================================================

/-- The probe loop in local create-new mode stops at the first free
candidate index, after stepping over every occupied one. -/
theorem findFreeKey_create (cfg : Config) (hloc : cfg.localMode = true) :
    ∀ (i fuel m : Nat) (st : ArrayState), st.config = cfg →
      st.key = candidateKey cfg m → st.fileCount = m + 1 →
      i < fuel →
      fsLookup st.fs (candidatePath cfg (m + i)) = none →
      (∀ i2, i2 < i → (fsLookup st.fs (candidatePath cfg (m + i2))).isSome = true) →
      ArrayStream.findFreeKey fuel st
        = { st with key := candidateKey cfg (m + i), fileCount := m + i + 1 } := by
  intro i
  induction i with
  | zero =>
    intro fuel m st hcfg hkey hfc hfuel hfree hskip
    cases fuel with
    | zero => omega
    | succ n =>
      rw [findFreeKey_succ]
      rw [if_neg (by
        rw [show ArrayStream.localPath st = candidatePath cfg m from by
          unfold ArrayStream.localPath candidatePath
          rw [hcfg, hkey]]
        rw [show (m : Nat) = m + 0 from rfl, hfree]
        simp)]
      simp only [Nat.add_zero]
      rw [← hkey, ← hfc]
  | succ i2 ih =>
    intro fuel m st hcfg hkey hfc hfuel hfree hskip
    cases fuel with
    | zero => omega
    | succ n =>
      rw [findFreeKey_succ]
      rw [if_pos (by
        rw [show ArrayStream.localPath st = candidatePath cfg m from by
          unfold ArrayStream.localPath candidatePath
          rw [hcfg, hkey]]
        have := hskip 0 (by omega)
        rw [Nat.add_zero] at this
        rw [hcfg, hloc, this]
        rfl)]
      have hik : ArrayStream.incrementKey st
          = { st with key := candidateKey cfg (m + 1), fileCount := m + 2 } := by
        unfold ArrayStream.incrementKey
        rw [hcfg, hfc]
      rw [hik]
      have := ih n (m + 1) { st with key := candidateKey cfg (m + 1), fileCount := m + 2 }
        hcfg rfl rfl (by omega)
        (by rw [show m + 1 + i2 = m + (i2 + 1) by omega]; exact hfree)
        (fun i3 hi3 => by
          rw [show m + 1 + i3 = m + (i3 + 1) by omega]
          exact hskip (i3 + 1) (by omega))
      rw [this]
      have he1 : m + 1 + i2 = m + (i2 + 1) := by omega
      rw [he1]

/-- C8 (amended): for local sinks in create-new mode the probe loop
resolves the first free candidate index — stepping over every
occupied candidate, never touching a pre-existing file — while in
append or overwrite mode the first candidate key is used
unconditionally without probing.  (For remote sinks the probe is
skipped entirely; see the counterexample.) -/
theorem c8_create_probes_append_not (cfg : Config) (hloc : cfg.localMode = true) :
    (∀ (m i : Nat) (st : ArrayState), st.config = cfg →
      cfg.append = false → cfg.overwrite = false →
      st.key = candidateKey cfg m → st.fileCount = m + 1 →
      i ≤ st.fs.length →
      fsLookup st.fs (candidatePath cfg (m + i)) = none →
      (∀ i2, i2 < i → (fsLookup st.fs (candidatePath cfg (m + i2))).isSome = true) →
      (ArrayStream.openOutstream st).outstream = some (candidatePath cfg (m + i)) ∧
      (ArrayStream.openOutstream st).files = st.files ++ [candidatePath cfg (m + i)] ∧
      (ArrayStream.openOutstream st).fs = st.fs ++ [(candidatePath cfg (m + i), "[")]) ∧
    (∀ st : ArrayState, st.config.localMode = true →
      (st.config.append = true ∨ st.config.overwrite = true) →
      (ArrayStream.openOutstream st).key = st.key ∧
      (ArrayStream.openOutstream st).fileCount = st.fileCount ∧
      (ArrayStream.openOutstream st).outstream = some (ArrayStream.localPath st)) := by
  constructor
  · intro m i st hcfg happ hovw hkey hfc hi hfree hskip
    have hfk := findFreeKey_create cfg hloc i (st.fs.length + 1) m st hcfg hkey hfc
      (by omega) hfree hskip
    have hfree2 : ∀ q ∈ st.fs, q.1 ≠ candidatePath cfg (m + i) :=
      (fsLookup_eq_none_iff _ _).mp hfree
    unfold ArrayStream.openOutstream
    rw [show st.config.append = false from by rw [hcfg]; exact happ,
        show st.config.overwrite = false from by rw [hcfg]; exact hovw]
    simp only [Bool.not_false, Bool.and_self, if_true]
    rw [hfk]
    simp only [hcfg]
    have hpath : ArrayStream.localPath ({ config := cfg, sep := st.sep, count := st.count, fileCount := m + i + 1, files := st.files, key := candidateKey cfg (m + i), destroyed := st.destroyed, outstream := st.outstream, fs := st.fs } : ArrayState) = candidatePath cfg (m + i) := rfl
    simp only [hpath, hloc, if_true, hovw, Bool.false_eq_true, if_false, hfree]
    rw [fsSet_of_free st.fs (candidatePath cfg (m + i)) "[" hfree2]
    exact ⟨trivial, trivial, rfl⟩
  · intro st hloc2 hmode
    have hmode2 : (!st.config.append && !st.config.overwrite) = false := by
      rcases hmode with h | h <;> simp [h]
    unfold ArrayStream.openOutstream
    rw [hmode2]
    simp only [Bool.false_eq_true, if_false, hloc2, if_true]
    split
    · split
      · exact ⟨rfl, rfl, rfl⟩
      · exact ⟨rfl, rfl, rfl⟩
    · exact ⟨rfl, rfl, rfl⟩

/-- Witness for C8 (amended) at the concrete local configuration. -/
theorem c8_witness :
    (∀ (m i : Nat) (st : ArrayState), st.config = cfgW →
      cfgW.append = false → cfgW.overwrite = false →
      st.key = candidateKey cfgW m → st.fileCount = m + 1 →
      i ≤ st.fs.length →
      fsLookup st.fs (candidatePath cfgW (m + i)) = none →
      (∀ i2, i2 < i → (fsLookup st.fs (candidatePath cfgW (m + i2))).isSome = true) →
      (ArrayStream.openOutstream st).outstream = some (candidatePath cfgW (m + i)) ∧
      (ArrayStream.openOutstream st).files = st.files ++ [candidatePath cfgW (m + i)] ∧
      (ArrayStream.openOutstream st).fs = st.fs ++ [(candidatePath cfgW (m + i), "[")]) ∧
    (∀ st : ArrayState, st.config.localMode = true →
      (st.config.append = true ∨ st.config.overwrite = true) →
      (ArrayStream.openOutstream st).key = st.key ∧
      (ArrayStream.openOutstream st).fileCount = st.fileCount ∧
      (ArrayStream.openOutstream st).outstream = some (ArrayStream.localPath st)) :=
  c8_create_probes_append_not cfgW rfl

def cfgR : Config := { cfgW with localMode := false, bucket := some "b" }

def fsR : List (String × String) := [("s3://b/out/shard_0000.json", "OLD")]

/-- Counterexample to C8 as stated: for a remote sink in create-new
mode, `statSync(params.filePath)` probes an undefined path and throws
at once, so the probe loop never consults the target: the writer
resolves the first candidate key even though an object already exists
there, and opening the upload replaces that pre-existing object. -/
theorem c8_counterexample :
    fsLookup (initState cfgR fsR).fs "s3://b/out/shard_0000.json" = some "OLD" ∧
    (ArrayStream.openOutstream (initState cfgR fsR)).outstream
      = some "s3://b/out/shard_0000.json" ∧
    (ArrayStream.openOutstream (initState cfgR fsR)).files = ["out/shard_0000.json"] ∧
    fsLookup (ArrayStream.openOutstream (initState cfgR fsR)).fs "s3://b/out/shard_0000.json"
      = some "" := by
  refine ⟨?_, ?_, ?_, ?_⟩ <;> decide

-- ======================================================================
-- CLAIM C4: append mode on an existing shard file
-- ======================================================================

/-- The hypothesis of the append claim in the spec's own words: the
pre-existing file is a syntactically valid JSON array over the
fragment's values (with or without the writer's trailing newline). -/
def IsJsonArrayText (content : String) : Prop :=
  ∃ js : List Json, content = "[" ++ joinComma (js.map Json.render) ++ "]"

theorem string_mk_data (s : String) : String.mk s.data = s := by
  cases s with
  | mk d => rfl

theorem getD_append_length (pre : List Char) (c : Char) (post : List Char) :
    (pre ++ c :: post).getD pre.length ' ' = c := by
  induction pre with
  | nil => rfl
  | cons a t ih =>
    rw [show ((a :: t) ++ c :: post).getD (a :: t).length ' '
          = (t ++ c :: post).getD t.length ' ' from rfl]
    exact ih

/-- Every serialized item ends in a byte that is neither `[` nor `,`:
`l`/`e` for the keywords, the closing quote for a string. -/
theorem renderL_last (j : Json) :
    ∃ (b : List Char) (c : Char), j.renderL = b ++ [c] ∧ c ≠ '[' ∧ c ≠ ',' := by
  cases j with
  | null => exact ⟨['n', 'u', 'l'], 'l', rfl, by decide, by decide⟩
  | bool v =>
    cases v with
    | true => exact ⟨['t', 'r', 'u'], 'e', rfl, by decide, by decide⟩
    | false => exact ⟨['f', 'a', 'l', 's'], 'e', rfl, by decide, by decide⟩
  | str s => exact ⟨'\"' :: s.data, '\"', rfl, by decide, by decide⟩

/-- A nonempty serialized body ends in a byte that is neither `[` nor
`,` — the byte the append heuristic inspects. -/
theorem joinComma_last : ∀ (js : List Json), js ≠ [] →
    ∃ (b : List Char) (c : Char),
      (joinComma (js.map Json.render)).data = b ++ [c] ∧ c ≠ '[' ∧ c ≠ ','
  | [], h => absurd rfl h
  | [j], _ => by
    obtain ⟨b, c, hbc, h1, h2⟩ := renderL_last j
    refine ⟨b, c, ?_, h1, h2⟩
    show (Json.render j).data = b ++ [c]
    rw [show (Json.render j).data = j.renderL from rfl, hbc]
  | j :: j2 :: rest, _ => by
    obtain ⟨b, c, hbc, h1, h2⟩ := joinComma_last (j2 :: rest) (by simp)
    refine ⟨(Json.render j).data ++ ',' :: b, c, ?_, h1, h2⟩
    show (Json.render j ++ "," ++ joinComma ((j2 :: rest).map Json.render)).data = _
    rw [String.data_app, String.data_app, hbc]
    rw [show (",").data = [','] from rfl]
    simp

theorem shardClosed_data (rs : List String) :
    (shardClosed rs).data = '[' :: ((joinComma rs).data ++ [']', '\n']) := by
  show (("[" ++ joinComma rs) ++ "]\n").data = _
  rw [String.data_app, String.data_app]
  rw [show ("[").data = ['['] from rfl, show ("]\n").data = [']', '\n'] from rfl]
  simp

theorem shardOpen_data (rs : List String) :
    (shardOpen rs).data = '[' :: (joinComma rs).data := by
  show ("[" ++ joinComma rs).data = _
  rw [String.data_app, show ("[").data = ['['] from rfl]
  rfl

theorem fsLookup_fsSet (l : List (String × String)) (p v : String) :
    fsLookup (fsSet l p v) p = some v := by
  induction l with
  | nil => simp [fsSet, fsLookup]
  | cons e t ih =>
    rw [show fsSet (e :: t) p v = if e.1 = p then (e.1, v) :: t else e :: fsSet t p v from rfl]
    by_cases h : e.1 = p
    · rw [if_pos h]
      rw [show fsLookup ((e.1, v) :: t) p = if e.1 = p then some v else fsLookup t p from rfl]
      rw [if_pos h]
    · rw [if_neg h]
      rw [show fsLookup (e :: fsSet t p v) p
            = if e.1 = p then some e.2 else fsLookup (fsSet t p v) p from rfl]
      rw [if_neg h, ih]

theorem fsSet_fsSet (l : List (String × String)) (p v w : String) :
    fsSet (fsSet l p v) p w = fsSet l p w := by
  induction l with
  | nil => simp [fsSet]
  | cons e t ih =>
    rw [show fsSet (e :: t) p v = if e.1 = p then (e.1, v) :: t else e :: fsSet t p v from rfl]
    by_cases h : e.1 = p
    · rw [if_pos h]
      rw [show fsSet ((e.1, v) :: t) p w
            = if e.1 = p then (e.1, w) :: t else (e.1, v) :: fsSet t p w from rfl]
      rw [if_pos h]
      rw [show fsSet (e :: t) p w = if e.1 = p then (e.1, w) :: t else e :: fsSet t p w from rfl]
      rw [if_pos h]
    · rw [if_neg h]
      rw [show fsSet (e :: fsSet t p v) p w
            = if e.1 = p then (e.1, w) :: fsSet t p v else e :: fsSet (fsSet t p v) p w from rfl]
      rw [if_neg h, ih]
      rw [show fsSet (e :: t) p w = if e.1 = p then (e.1, w) :: t else e :: fsSet t p w from rfl]
      rw [if_neg h]

/-- The writer state while appending to the pre-existing shard file at
`p`: the reopened file holds the open form of `body`, `n` newly
submitted items have been counted, and the separator is set unless the
body is still empty. -/
def appendState (cfg : Config) (fs0 : List (String × String)) (p : String)
    (body : List String) (n : Nat) : ArrayState :=
  { config := cfg, sep := if body.isEmpty then "" else SEPARATOR,
    count := n, fileCount := 1, files := [p], key := candidateKey cfg 0,
    destroyed := false, outstream := some p,
    fs := fsSet fs0 p (shardOpen body) }

/-- Opening the sink in local append mode on a file holding a closed
shard: the writer truncates the trailing `]\n`, keeps the bracket and
body, and sets the separator exactly when the body is nonempty. -/
theorem openOutstream_append_closed (st : ArrayState) (rs : List Json)
    (hap : st.config.append = true) (hov : st.config.overwrite = false)
    (hloc : st.config.localMode = true)
    (hfile : fsLookup st.fs (ArrayStream.localPath st)
      = some (shardClosed (rs.map Json.render))) :
    ArrayStream.openOutstream st
      = { st with files := st.files ++ [ArrayStream.localPath st],
                  fs := fsSet st.fs (ArrayStream.localPath st) (shardOpen (rs.map Json.render)),
                  sep := if (rs.map Json.render).isEmpty then "" else SEPARATOR,
                  outstream := some (ArrayStream.localPath st) } := by
  cases rs with
  | nil =>
    unfold ArrayStream.openOutstream
    rw [hap]
    simp only [Bool.not_true, Bool.false_and, Bool.false_eq_true, if_false, hloc, if_true]
    rw [hov]
    simp only [Bool.false_eq_true, if_false]
    rw [show ({ st with files := st.files ++ [ArrayStream.localPath st] } : ArrayState).fs
          = st.fs from rfl]
    rw [hfile]
    rfl
  | cons j rs2 =>
    obtain ⟨b, c, hbc, hc1, hc2⟩ := joinComma_last (j :: rs2) (by simp)
    have hdata : (shardClosed ((j :: rs2).map Json.render)).data
        = ('[' :: b) ++ c :: [']', '\n'] := by
      rw [shardClosed_data, hbc]
      simp
    have hlen : (shardClosed ((j :: rs2).map Json.render)).length = b.length + 4 := by
      rw [show (shardClosed ((j :: rs2).map Json.render)).length
            = (shardClosed ((j :: rs2).map Json.render)).data.length from rfl, hdata]
      simp
    have h2le : 2 ≤ (shardClosed ((j :: rs2).map Json.render)).length := by rw [hlen]; omega
    have h3le : 3 ≤ (shardClosed ((j :: rs2).map Json.render)).length := by rw [hlen]; omega
    have hbyte : (shardClosed ((j :: rs2).map Json.render)).data.getD
        ((shardClosed ((j :: rs2).map Json.render)).length - 3) ' ' = c := by
      rw [hdata, hlen, show b.length + 4 - 3 = ('[' :: b).length from by simp]
      exact getD_append_length ('[' :: b) c [']', '\n']
    have huse : (if c = '[' ∨ c = ',' then false else true) = true :=
      if_neg (fun h => h.elim hc1 hc2)
    have htake : String.mk ((shardClosed ((j :: rs2).map Json.render)).data.take
        ((shardClosed ((j :: rs2).map Json.render)).length - 2))
        = shardOpen ((j :: rs2).map Json.render) := by
      have hdata2 : (shardClosed ((j :: rs2).map Json.render)).data
          = ('[' :: (b ++ [c])) ++ [']', '\n'] := by
        rw [hdata]
        simp
      rw [hdata2, hlen, show b.length + 4 - 2 = ('[' :: (b ++ [c])).length from by simp,
          List.take_left]
      have hod : (shardOpen ((j :: rs2).map Json.render)).data = '[' :: (b ++ [c]) := by
        rw [shardOpen_data, hbc]
      rw [← hod, string_mk_data]
    have hie : ((j :: rs2).map Json.render).isEmpty = false := rfl
    unfold ArrayStream.openOutstream
    rw [hap]
    simp only [Bool.not_true, Bool.false_and, Bool.false_eq_true, if_false, hloc, if_true]
    rw [hov]
    simp only [Bool.false_eq_true, if_false]
    rw [show ({ st with files := st.files ++ [ArrayStream.localPath st] } : ArrayState).fs
          = st.fs from rfl]
    rw [hfile]
    simp only [h2le, h3le, hbyte, huse, htake, hie, if_true, ite_true, ite_false, reduceIte,
      Bool.false_eq_true, if_false]

theorem writeCont_fst (st : ArrayState) (c : Chunk) (pre1 pre2 : List CbRes) :
    (ArrayStream.writeCont st c pre1).1 = (ArrayStream.writeCont st c pre2).1 := by
  unfold ArrayStream.writeCont
  cases h : st.outstream with
  | none => rfl
  | some p => rfl

/-- The state reached by the first `_write` of a lazy writer is the
state the same `_write` reaches from the opened writer. -/
theorem writeStep_open_fst (st : ArrayState) (c : Chunk) (p : String)
    (hlz : st.config.lazy = true) (hout : st.outstream = none)
    (hop : (ArrayStream.openOutstream st).outstream = some p)
    (hsch2 : (ArrayStream.openOutstream st).config.itemSchema = none) :
    (ArrayStream.writeStep st c).1 = (ArrayStream.writeStep (ArrayStream.openOutstream st) c).1 := by
  unfold ArrayStream.writeStep
  rw [hlz, hout, hop]
  simp only [Option.isNone_none, Bool.and_true, Bool.and_self, if_true,
    Option.isNone_some, Bool.and_false, Bool.false_eq_true, if_false]
  rw [hsch2]
  exact writeCont_fst _ _ _ _

/-- One accepted item in the append-state: no rotation while the new
items fit in the shard, so the item is appended to the body. -/
theorem writeStep_append (cfg : Config) (k : Nat) (fs0 : List (String × String))
    (p : String) (body : List String) (n : Nat) (j : Json)
    (hmx : cfg.maxItems = k) (hsch : cfg.itemSchema = none) (hn : n < k) :
    (ArrayStream.writeStep (appendState cfg fs0 p body n) (Chunk.obj j)).1
      = appendState cfg fs0 p (body ++ [j.render]) (n + 1) := by
  have hrot : ¬ (n ≥ cfg.maxItems) := by rw [hmx]; omega
  have hlook : fsLookup (fsSet fs0 p (shardOpen body)) p = some (shardOpen body) :=
    fsLookup_fsSet fs0 p (shardOpen body)
  cases body with
  | nil =>
    have hset : fsSet (fsSet fs0 p (shardOpen [])) p (shardOpen [] ++ ("" ++ j.render))
        = fsSet fs0 p (shardOpen [j.render]) := by
      rw [str_empty_append, shardOpen_nil, shardOpen_singleton, fsSet_fsSet]
    simp only [ArrayStream.writeStep, ArrayStream.writeCont, ArrayStream.outWrite,
      ArrayStream.incrementCount, appendState, chunkToString, hsch, hrot,
      Option.isNone_some, Bool.and_false, Bool.false_eq_true, if_false,
      List.isEmpty_nil, List.isEmpty_cons, List.nil_append, hlook, Option.getD_some, hset,
      ite_true, ite_false, if_true, String.reduceEq, reduceIte, SEPARATOR]
  | cons x rest =>
    have hne : x :: rest ≠ ([] : List String) := by simp
    have hset : fsSet (fsSet fs0 p (shardOpen (x :: rest))) p
        (shardOpen (x :: rest) ++ ("," ++ j.render))
        = fsSet fs0 p (shardOpen ((x :: rest) ++ [j.render])) := by
      rw [shardOpen_append (x :: rest) j.render hne, fsSet_fsSet]
    simp only [ArrayStream.writeStep, ArrayStream.writeCont, ArrayStream.outWrite,
      ArrayStream.incrementCount, appendState, chunkToString, hsch, hrot,
      Option.isNone_some, Bool.and_false, Bool.false_eq_true, if_false,
      List.isEmpty_cons, List.cons_append, hlook, Option.getD_some, hset,
      ite_true, ite_false, if_true, String.reduceEq, reduceIte, SEPARATOR]

/-- Iterating accepted items in append mode extends the reopened body
in submission order, with no rotation while they fit. -/
theorem runItems_append (cfg : Config) (k : Nat) (fs0 : List (String × String))
    (p : String) (hmx : cfg.maxItems = k) (hsch : cfg.itemSchema = none) :
    ∀ (zs : List Json) (body : List String) (n : Nat), n + zs.length ≤ k →
      runItems (appendState cfg fs0 p body n) (zs.map Chunk.obj)
        = appendState cfg fs0 p (body ++ zs.map Json.render) (n + zs.length) := by
  intro zs
  induction zs with
  | nil =>
    intro body n h
    simp [runItems]
  | cons y t ih =>
    intro body n h
    have hn : n < k := by simp only [List.length_cons] at h; omega
    rw [List.map_cons, runItems_cons, writeStep_append cfg k fs0 p body n y hmx hsch hn]
    rw [ih (body ++ [y.render]) (n + 1) (by simp only [List.length_cons] at h; omega)]
    rw [show (body ++ [y.render]) ++ t.map Json.render = body ++ (y :: t).map Json.render from by simp]
    rw [show n + 1 + t.length = n + (y :: t).length from by simp only [List.length_cons]; omega]

/-- End-of-input from the append-state: the closing bracket and
newline are written back, finalizing the extended shard. -/
theorem close_append (cfg : Config) (fs0 : List (String × String)) (p : String)
    (body : List String) (n : Nat) :
    (ArrayStream.closeArrayStream (appendState cfg fs0 p body n)).fs
      = fsSet fs0 p (shardClosed body) := by
  have hlook : fsLookup (fsSet fs0 p (shardOpen body)) p = some (shardOpen body) :=
    fsLookup_fsSet fs0 p (shardOpen body)
  have hset : fsSet (fsSet fs0 p (shardOpen body)) p (shardOpen body ++ "]\n")
      = fsSet fs0 p (shardClosed body) := by
    rw [shardOpen_close, fsSet_fsSet]
  simp only [ArrayStream.closeArrayStream, ArrayStream.flushOutstream,
    ArrayStream.resetOutstream, ArrayStream.outWrite, appendState,
    Bool.false_eq_true, if_false, if_true, hlook, hset, Option.getD_some,
    ite_true, ite_false, reduceIte]

/-- C4 (amended): appending to an existing shard file in the writer's
own output format — `[` + comma-joined serialized items + `]\n` —
never produces a malformed array.  With `mode=append`, a pre-existing
file holding the closed shard of `xs` followed by submitting `ys` (at
most one shard's worth) and closing yields exactly the closed shard of
`xs ++ ys`, a valid JSON array file (the spec's example: `["p"]` plus
`"q"` gives `["p","q"]`).  The amendment restricts the pre-existing
file to the writer's format: the separator heuristic reads the byte at
`size - 3` and resumes writing at `size - 2`, which assumes the file
ends in the two bytes `]\n`; a valid JSON array not of that form is
corrupted (see the counterexample). -/
theorem c4_append_keeps_valid (cfg : Config) (k : Nat)
    (hap : cfg.append = true) (hov : cfg.overwrite = false)
    (hloc : cfg.localMode = true) (hlz : cfg.lazy = true)
    (hsch : cfg.itemSchema = none) (hmx : cfg.maxItems = k)
    (xs ys : List Json) (hlen : ys.length ≤ k)
    (fs0 : List (String × String))
    (hfile : fsLookup fs0 (candidatePath cfg 0)
      = some (shardClosed (xs.map Json.render))) :
    fsLookup (ArrayStream.closeArrayStream
        (runItems (initState cfg fs0) (ys.map Chunk.obj))).fs (candidatePath cfg 0)
      = some (shardClosed ((xs ++ ys).map Json.render)) ∧
    IsJsonArrayFile (shardClosed ((xs ++ ys).map Json.render)) := by
  have hinit : initState cfg fs0 = ({ config := cfg, sep := "", count := 0, fileCount := 1, files := [], key := candidateKey cfg 0, destroyed := false, outstream := none, fs := fs0 } : ArrayState) := by
    unfold initState
    rw [hlz]
    rfl
  have hopen : ArrayStream.openOutstream (initState cfg fs0)
      = appendState cfg fs0 (candidatePath cfg 0) (xs.map Json.render) 0 := by
    rw [hinit]
    rw [openOutstream_append_closed _ xs hap hov hloc hfile]
    simp [appendState, ArrayStream.localPath, candidatePath, pathJoin]
  refine ⟨?_, ⟨xs ++ ys, rfl⟩⟩
  cases ys with
  | nil =>
    have hclose : (ArrayStream.closeArrayStream (initState cfg fs0)).fs = fs0 := by
      rw [hinit]
      rfl
    have h1 : runItems (initState cfg fs0) (([] : List Json).map Chunk.obj)
        = initState cfg fs0 := rfl
    rw [h1, hclose, List.append_nil]
    exact hfile
  | cons y ys2 =>
    have hlen2 : 0 + (y :: ys2).length ≤ k := by simpa using hlen
    have hws := writeStep_open_fst (initState cfg fs0) (Chunk.obj y) (candidatePath cfg 0)
      (by rw [hinit]; exact hlz) (by rw [hinit]) (by rw [hopen]; rfl) (by rw [hopen]; exact hsch)
    have hrun := runItems_append cfg k fs0 (candidatePath cfg 0) hmx hsch
      (y :: ys2) (xs.map Json.render) 0 hlen2
    have hchain : runItems (initState cfg fs0) ((y :: ys2).map Chunk.obj)
        = appendState cfg fs0 (candidatePath cfg 0)
            (xs.map Json.render ++ (y :: ys2).map Json.render) (0 + (y :: ys2).length) := by
      rw [List.map_cons, runItems_cons, hws, ← runItems_cons, ← List.map_cons, hopen, hrun]
    rw [hchain, close_append, fsLookup_fsSet, ← List.map_append]

def cfgC4 : Config := { cfgW with append := true }

def fsC4 : List (String × String) :=
  [(candidatePath cfgC4 0, shardClosed [Json.render (Json.str "p")])]

/-- Witness for C4 (amended): the spec's own example — a writer-format
file holding `["p"]` receives `"q"` and closes to `["p","q"]`. -/
theorem c4_witness :
    fsLookup (ArrayStream.closeArrayStream
        (runItems (initState cfgC4 fsC4) ([Json.str "q"].map Chunk.obj))).fs
        (candidatePath cfgC4 0)
      = some (shardClosed (([Json.str "p"] ++ [Json.str "q"]).map Json.render)) ∧
    IsJsonArrayFile (shardClosed (([Json.str "p"] ++ [Json.str "q"]).map Json.render)) :=
  c4_append_keeps_valid cfgC4 2 rfl rfl rfl rfl rfl rfl
    [Json.str "p"] [Json.str "q"] (by decide) fsC4 (by decide)

def fsC4X : List (String × String) := [(candidatePath cfgC4 0, "[]")]

/-- Counterexample to C4 as stated: `[]` is a syntactically valid JSON
array, but it does not end in the two bytes `]\n` the append heuristic
assumes.  The reopen truncates the final two bytes — here the whole
array — and appending `"q"` and closing leaves `"q"]\n`, which is not
a JSON array in either sense (it does not even start with `[`) and
does not decode. -/
theorem c4_counterexample :
    IsJsonArrayText "[]" ∧
    fsLookup (ArrayStream.closeArrayStream
        (runItems (initState cfgC4 fsC4X) [Chunk.obj (Json.str "q")])).fs
        (candidatePath cfgC4 0)
      = some "\"q\"]\n" ∧
    ¬ IsJsonArrayText "\"q\"]\n" ∧
    ¬ IsJsonArrayFile "\"q\"]\n" ∧
    decodeShard "\"q\"]\n" = none := by
  refine ⟨⟨[], by decide⟩, by decide, ?_, ?_, by decide⟩
  · rintro ⟨js, h⟩
    have h2 := congrArg String.data h
    have hsh : ("[" ++ joinComma (js.map Json.render) ++ "]").data
        = '[' :: ((joinComma (js.map Json.render)).data ++ [']']) := by
      rw [String.data_app, String.data_app]
      rw [show ("[").data = ['['] from rfl, show ("]").data = [']'] from rfl]
      simp
    have hq : ("\"q\"]\n").data = '\"' :: ['q', '\"', ']', '\n'] := rfl
    rw [hsh, hq] at h2
    injection h2 with hh ht
    exact absurd hh (by decide)
  · rintro ⟨js, h⟩
    have h2 := congrArg String.data h
    have hq : ("\"q\"]\n").data = '\"' :: ['q', '\"', ']', '\n'] := rfl
    rw [shardClosed_data, hq] at h2
    injection h2 with hh ht
    exact absurd hh (by decide)

-- ======================================================================
-- COUNTEREXAMPLES TO C1 AND C2 AS STATED: the excluded configurations
-- ======================================================================

def cfgNL : Config := { cfgW with lazy := false }

/-- Counterexample to C1 as stated: outside the local lazy create-new
scenario the code falsifies the claim.  A remote create-mode writer
receiving one accepted item produces one shard object holding
`"a"]\n` — the remote branch of `openOutstream` opens a PassThrough
upload and never writes the opening `[` — so the shard is not a
syntactically valid JSON array and does not decode.  And a non-lazy
writer opens its first shard during construction: closed after zero
items it has produced 1 file, while `⌈0/k⌉ = 0`. -/
theorem c1_counterexample :
    (ArrayStream.closeArrayStream (runItems (initState cfgR [])
        [Chunk.obj (Json.str "a")])).files.length = 1 ∧
    fsLookup (ArrayStream.closeArrayStream (runItems (initState cfgR [])
        [Chunk.obj (Json.str "a")])).fs "s3://b/out/shard_0000.json"
      = some "\"a\"]\n" ∧
    ¬ IsJsonArrayFile "\"a\"]\n" ∧
    decodeShard "\"a\"]\n" = none ∧
    (ArrayStream.closeArrayStream (initState cfgNL [])).files.length = 1 ∧
    (0 + cfgNL.maxItems - 1) / cfgNL.maxItems = 0 := by
  refine ⟨by decide, by decide, ?_, by decide, by decide, by decide⟩
  rintro ⟨js, h⟩
  have h2 := congrArg String.data h
  have hq : ("\"a\"]\n").data = '\"' :: ['a', '\"', ']', '\n'] := rfl
  rw [shardClosed_data, hq] at h2
  injection h2 with hh ht
  exact absurd hh (by decide)

/-- Counterexample to C2 as stated: for the remote backend the
finalized shard content is not `[` ++ comma-joined items ++ `]\n`.
In the a, b, c run against a remote sink with `maxItems = 2`, the
rotated second shard object holds `,"c"]\n`: the remote branch writes
no opening bracket, and the separator set by the first shard is never
reset across the rotation, so the stale comma leads the content,
which does not decode. -/
theorem c2_counterexample :
    fsLookup (ArrayStream.closeArrayStream (runItems (initState cfgR [])
        (itemsW.map Chunk.obj))).fs "s3://b/out/shard_0001.json"
      = some ",\"c\"]\n" ∧
    ¬ IsJsonArrayFile ",\"c\"]\n" ∧
    decodeShard ",\"c\"]\n" = none := by
  refine ⟨by decide, ?_, by decide⟩
  rintro ⟨js, h⟩
  have h2 := congrArg String.data h
  have hq : (",\"c\"]\n").data = ',' :: ['\"', 'c', '\"', ']', '\n'] := rfl
  rw [shardClosed_data, hq] at h2
  injection h2 with hh ht
  exact absurd hh (by decide)
